import Mathlib

/-!
The draw-a-fish feature extraction, heuristic classifier and record store.

A shallow embedding of `src/ai-analysis.js` (class `FishAIAnalyzer`) and
`src/fish-draw-app/firebase-config.js` (class `FirebaseManager`).

JavaScript numbers are IEEE-754 binary64 values.  Every number these functions
compute is finite and non-negative, and every such value is an integer multiple
of `2^-1074`; a number is therefore embedded as the natural number of
`2^-1074` units it holds (`one = 2^1074` units).  An arithmetic operation is the
exact operation on rationals followed by `roundRat`, rounding to nearest with
ties to even at 53 significant bits (the unit grid itself below `2^-1022`, the
subnormal range).  All values stay far below `2^1024`, so overflow never occurs.
-/

namespace DrawAFish

/-! ## Definitions -/

/-! ### binary64 arithmetic -/

/-- Number of binary digits of `n`, found by halving at most `fuel` times. -/
def bitLenAux : ℕ → ℕ → ℕ
  | 0, _ => 0
  | fuel + 1, n => if n = 0 then 0 else bitLenAux fuel (n / 2) + 1

/-- Number of binary digits of `n` (`0` for `n = 0`). -/
def bitLen (n : ℕ) : ℕ := bitLenAux n n

/-- The quotient `n / D` rounded to the nearest integer, ties to the even one. -/
def rneDiv (n D : ℕ) : ℕ :=
  let q := n / D
  let r := n % D
  if 2 * r < D then q else if D < 2 * r then q + 1 else q + q % 2

/-- The rational `n / d` (in units of `2^-1074`) rounded to binary64: the grid
spacing is `2^k` units, where `k` leaves 53 significant bits. -/
def roundRat (n d : ℕ) : ℕ :=
  let k := bitLen (n / d) - 53
  rneDiv n (d <<< k) <<< k

/-- A number of units that is a binary64 value: rounding leaves it unchanged. -/
def isDouble (x : ℕ) : Prop := roundRat x 1 = x

instance instDecidableIsDouble (x : ℕ) : Decidable (isDouble x) := by
  unfold isDouble; infer_instance

/-- The number 1, in units of `2^-1074`. -/
def one : ℕ := 1 <<< 1074

/-- The binary64 value of the integer `a`. -/
def ofNat (a : ℕ) : ℕ := roundRat (a * one) 1

/-- The binary64 value of the decimal literal `n / d`, e.g. `0.7` is `lit 7 10`. -/
def lit (n d : ℕ) : ℕ := roundRat (n * one) d

/-- JavaScript `x + y`. -/
def fadd (x y : ℕ) : ℕ := roundRat (x + y) 1

/-- JavaScript `x * y`. -/
def fmul (x y : ℕ) : ℕ := roundRat (x * y) one

/-- JavaScript `x / y` for `y` not zero. -/
def fdiv (x y : ℕ) : ℕ := roundRat (x * one) y

/-- `Math.round(x)`: the integer `floor(x + 1/2)`, computed exactly. -/
def mathRound (x : ℕ) : ℕ := (2 * x + one) / (2 * one)

/-- `Math.floor(x)`. -/
def mathFloor (x : ℕ) : ℕ := x / one

/-! ### `FishAIAnalyzer.extractBasicFeatures` -/

/-- The `imageData` argument: `data` is the RGBA byte array, four entries per
pixel, row by row. -/
structure ImageData where
  data : List ℕ
  width : ℕ
  height : ℕ
  deriving DecidableEq, Repr

/-- The object returned by `extractBasicFeatures`. -/
structure FeatureSet where
  coverage : ℕ
  complexity : ℕ
  pixelCount : ℕ
  edgeCount : ℕ
  strokeCount : ℕ
  deriving DecidableEq, Repr

/-- The test `neighbors.some(n => Math.abs(n - alpha) > 50)`.  A read outside the
array is `undefined`, for which the comparison is false. -/
def hasEdge (neighbors : List (Option ℕ)) (alpha : ℕ) : Bool :=
  neighbors.any fun n =>
    match n with
    | some v => decide (50 < Int.natAbs ((v : ℤ) - (alpha : ℤ)))
    | none => false

/-- One iteration of the scanning loop, at `i = 4 * k`; `acc` is
`(pixelCount, edgeCount)`.  Here `x = (i / 4) % width` and
`y = Math.floor((i / 4) / width)`; for `width = 0` JavaScript yields `NaN` for
`x` and the interior test is false, as it is here. -/
def scanStep (img : ImageData) (acc : ℕ × ℕ) (k : ℕ) : ℕ × ℕ :=
  let i := 4 * k
  match img.data[i + 3]? with
  | none => acc
  | some alpha =>
    if 0 < alpha then
      let x := k % img.width
      let y := k / img.width
      if 0 < x ∧ 0 < y ∧ (x : ℤ) < (img.width : ℤ) - 1 ∧ (y : ℤ) < (img.height : ℤ) - 1 then
        let neighbors := [img.data[i - 4 + 3]?, img.data[i + 4 + 3]?,
          img.data[i - img.width * 4 + 3]?, img.data[i + img.width * 4 + 3]?]
        if hasEdge neighbors alpha then (acc.1 + 1, acc.2 + 1) else (acc.1 + 1, acc.2)
      else (acc.1 + 1, acc.2)
    else acc

/-- The loop `for (let i = 0; i < data.length; i += 4)`. -/
def scan (img : ImageData) : ℕ × ℕ :=
  (List.range ((img.data.length + 3) / 4)).foldl (scanStep img) (0, 0)

/-- Lines 87-125 of `extractBasicFeatures`, for an `imageData` that carries a
`data` array.  The result is `none` exactly when `width * height` is zero, where
the JavaScript quotient `pixelCount / totalPixels` is `NaN` or `Infinity`. -/
def extractBasicFeatures (img : ImageData) : Option FeatureSet :=
  let pixelCount := (scan img).1
  let edgeCount := (scan img).2
  let totalPixels := img.width * img.height
  if totalPixels = 0 then none
  else
    let coverage := fdiv (ofNat pixelCount) (ofNat totalPixels)
    let complexity := fdiv (ofNat edgeCount) (ofNat (max pixelCount 1))
    some
      { coverage := mathRound (fmul coverage (ofNat 100))
        complexity := mathRound (fmul complexity (ofNat 100))
        pixelCount := pixelCount
        edgeCount := edgeCount
        strokeCount := max 1 (mathRound (fdiv (ofNat edgeCount) (ofNat 50))) }

/-! ### The raster as the specification reads it -/

/-- Alpha channel of the pixel in column `x`, row `y`. -/
def alphaAt (img : ImageData) (x y : ℕ) : ℕ :=
  img.data.getD (4 * (y * img.width + x) + 3) 0

/-- Two alpha values differ by more than the threshold 50. -/
def sharp (a b : ℕ) : Prop := 50 < Int.natAbs ((b : ℤ) - (a : ℤ))

instance instDecidableSharp (a b : ℕ) : Decidable (sharp a b) := by
  unfold sharp; infer_instance

/-- A covered pixel: alpha strictly positive. -/
def isCovered (img : ImageData) (p : ℕ × ℕ) : Prop := 0 < alphaAt img p.1 p.2

instance instDecidableIsCovered (img : ImageData) (p : ℕ × ℕ) : Decidable (isCovered img p) := by
  unfold isCovered; infer_instance

/-- An edge pixel: covered, strictly inside the border, and with a sharp alpha
difference to its left, right, upper or lower neighbour. -/
def isEdgePixel (img : ImageData) (p : ℕ × ℕ) : Prop :=
  isCovered img p ∧ 0 < p.1 ∧ p.1 + 1 < img.width ∧ 0 < p.2 ∧ p.2 + 1 < img.height ∧
    (sharp (alphaAt img p.1 p.2) (alphaAt img (p.1 - 1) p.2) ∨
      sharp (alphaAt img p.1 p.2) (alphaAt img (p.1 + 1) p.2) ∨
      sharp (alphaAt img p.1 p.2) (alphaAt img p.1 (p.2 - 1)) ∨
      sharp (alphaAt img p.1 p.2) (alphaAt img p.1 (p.2 + 1)))

instance instDecidableIsEdgePixel (img : ImageData) (p : ℕ × ℕ) :
    Decidable (isEdgePixel img p) := by
  unfold isEdgePixel; infer_instance

/-- All pixel positions `(x, y)` of the raster. -/
def pixels (img : ImageData) : Finset (ℕ × ℕ) :=
  Finset.range img.width ×ˢ Finset.range img.height

/-- Number of covered pixels. -/
def coveredCount (img : ImageData) : ℕ := ((pixels img).filter (isCovered img)).card

/-- Number of edge pixels. -/
def edgePixelCount (img : ImageData) : ℕ := ((pixels img).filter (isEdgePixel img)).card

/-- A raster buffer: positive width and height, four bytes per pixel. -/
def WellFormed (img : ImageData) : Prop :=
  1 ≤ img.width ∧ 1 ≤ img.height ∧ img.data.length = 4 * (img.width * img.height)

instance instDecidableWellFormed (img : ImageData) : Decidable (WellFormed img) := by
  unfold WellFormed; infer_instance

/-- Round-half-up of the exact quotient `100 * a / b`, i.e.
`floor(100 * a / b + 1/2)`. -/
def roundPercent (a b : ℕ) : ℕ := (200 * a + b) / (2 * b)

/-- The exact quotient `100 * a / b` lies half-way between two integers. -/
def isTie (a b : ℕ) : Prop := (200 * a + b) % (2 * b) = 0

instance instDecidableIsTie (a b : ℕ) : Decidable (isTie a b) := by
  unfold isTie; infer_instance

/-! ### `FishAIAnalyzer.simulateRecognition` and `generateSuggestions` -/

/-- The object returned by `simulateRecognition`; `type` is `none` for the
JavaScript value `undefined`, `confidence` is a binary64 value in units. -/
structure Recognition where
  type : Option String
  confidence : ℕ
  score : ℤ
  deriving DecidableEq, Repr

/-- The expression `types[Math.floor(Math.random() * types.length)]`, for the
random draw `u`. -/
def pick (types : List String) (u : ℕ) : Option String :=
  types[mathFloor (fmul u (ofNat types.length))]?

/-- Lines 135-153: the branch on coverage and complexity.  `rnd i` is the value
of the `i`-th call of `Math.random()`.  The result is the label, the confidence,
the score and the number of draws consumed. -/
def classifyBranch (features : FeatureSet) (rnd : ℕ → ℕ) : Option String × ℕ × ℕ × ℕ :=
  if 15 < features.coverage ∧ 10 < features.complexity then
    (pick ["金鱼", "鲤鱼", "热带鱼", "神仙鱼"] (rnd 0),
      fadd (lit 7 10) (fmul (rnd 1) (lit 2 10)),
      fadd (ofNat 70) (fmul (rnd 2) (ofNat 25)), 3)
  else if 8 < features.coverage then
    (pick ["小鱼", "简单鱼类", "鱼的轮廓"] (rnd 0),
      fadd (lit 6 10) (fmul (rnd 1) (lit 2 10)),
      fadd (ofNat 60) (fmul (rnd 2) (ofNat 20)), 3)
  else if 3 < features.coverage then
    (some "鱼的草图",
      fadd (lit 4 10) (fmul (rnd 0) (lit 3 10)),
      fadd (ofNat 40) (fmul (rnd 1) (ofNat 30)), 2)
  else
    (some "需要更多细节",
      fadd (lit 2 10) (fmul (rnd 0) (lit 3 10)),
      fadd (ofNat 20) (fmul (rnd 1) (ofNat 30)), 2)

/-- The final rounding `Math.round(confidence * 100) / 100`. -/
def roundConfidence (confidence : ℕ) : ℕ :=
  fdiv (ofNat (mathRound (fmul confidence (ofNat 100)))) (ofNat 100)

/-- The special-species vocabulary of the override. -/
def specialTypes : List String := ["鲨鱼", "小丑鱼", "蝴蝶鱼", "斗鱼"]

/-- The function `simulateRecognition(features)`, with the random draws `rnd`. -/
def simulateRecognition (features : FeatureSet) (rnd : ℕ → ℕ) : Recognition :=
  let b := classifyBranch features rnd
  let used := b.2.2.2
  if lit 8 10 < rnd used then
    { type := pick specialTypes (rnd (used + 1))
      confidence := roundConfidence (min (lit 9 10) (fadd b.2.1 (lit 1 10)))
      score := (mathRound (min (ofNat 95) (fadd b.2.2.1 (ofNat 10))) : ℕ) }
  else
    { type := b.1
      confidence := roundConfidence b.2.1
      score := (mathRound b.2.2.1 : ℕ) }

/-- Every draw of `Math.random()` is a binary64 value in `[0, 1)`. -/
def ValidDraws (rnd : ℕ → ℕ) : Prop := ∀ i, rnd i < one ∧ isDouble (rnd i)

/-- The tips pushed when `score < 40`. -/
def beginnerTips : List String :=
  ["尝试画出鱼的基本轮廓", "添加鱼鳍和尾巴", "画出鱼的眼睛"]

/-- The tips pushed when `40 <= score < 70`. -/
def intermediateTips : List String :=
  ["添加更多细节，如鱼鳞纹理", "完善鱼鳍的形状", "添加一些装饰元素"]

/-- The strings pushed when `score >= 70`. -/
def praiseTips : List String :=
  ["画得很棒！", "尝试添加背景元素", "可以尝试画不同种类的鱼"]

/-- The function `generateSuggestions(result)`. -/
def generateSuggestions (result : Recognition) : List String :=
  if result.score < 40 then beginnerTips
  else if result.score < 70 then intermediateTips
  else praiseTips

/-! ### `FirebaseManager` -/

/-- The `analysisResult` carried by a record, as far as the store reads it. -/
structure AnalysisResult where
  fishType : Option String
  score : Option ℤ
  deriving DecidableEq, Repr

/-- A stored record.  `timestamp` is the instant, in milliseconds, that the ISO
string written by `new Date().toISOString()` denotes and `new Date(...)` reads
back. -/
structure DrawingRecord where
  id : String
  timestamp : ℤ
  imageData : String
  analysisResult : Option AnalysisResult
  userAgent : String
  viewport : ℕ × ℕ
  deriving DecidableEq, Repr

/-- The argument of `saveDrawing`. -/
structure DrawingData where
  imageData : String
  analysisResult : Option AnalysisResult
  deriving DecidableEq, Repr

/-- The readings `saveDrawing` takes from its environment: `Date.now()`, the
string `Math.random().toString(36).substr(2, 9)`, the current instant,
`navigator.userAgent` and the window size. -/
structure Env where
  now : ℕ
  suffix : String
  timestamp : ℤ
  userAgent : String
  innerWidth : ℕ
  innerHeight : ℕ
  deriving DecidableEq, Repr

/-- The errors thrown by the store. -/
inductive StoreError where
  | notReady
  | notFound
  | invalidFormat
  deriving DecidableEq, Repr

/-- The state of a `FirebaseManager`. -/
structure FirebaseManager where
  isInitialized : Bool
  mockStorage : List DrawingRecord
  deriving DecidableEq, Repr

/-- The method `generateId()`. -/
def generateId (now : ℕ) (suffix : String) : String :=
  "drawing_" ++ toString now ++ "_" ++ suffix

/-- The method `saveDrawing(drawingData)`: the value returned or the error
thrown, and the state after the call. -/
def saveDrawing (s : FirebaseManager) (env : Env) (drawingData : DrawingData) :
    Except StoreError String × FirebaseManager :=
  if !s.isInitialized then (.error .notReady, s)
  else
    let record : DrawingRecord :=
      { id := generateId env.now env.suffix
        timestamp := env.timestamp
        imageData := drawingData.imageData
        analysisResult := drawingData.analysisResult
        userAgent := env.userAgent
        viewport := (env.innerWidth, env.innerHeight) }
    (.ok record.id, { s with mockStorage := s.mockStorage ++ [record] })

/-- The order produced by the comparator
`(a, b) => new Date(b.timestamp) - new Date(a.timestamp)`: `a` may stand before
`b` when `b` is not newer than `a`. -/
def newestFirst (a b : DrawingRecord) : Prop := b.timestamp ≤ a.timestamp

instance instDecidableNewestFirst : DecidableRel newestFirst := fun a b => by
  unfold newestFirst; infer_instance

instance instIsTotalNewestFirst : IsTotal DrawingRecord newestFirst :=
  ⟨fun a b => le_total b.timestamp a.timestamp⟩

instance instIsTransNewestFirst : IsTrans DrawingRecord newestFirst :=
  ⟨fun _ _ _ hab hbc => le_trans hbc hab⟩

/-- The call `arr.slice(0, limit)` for an integer `limit`; a negative `limit`
counts from the end. -/
def slice0 {α : Type} (arr : List α) (limit : ℤ) : List α :=
  if 0 ≤ limit then arr.take limit.toNat else arr.take (arr.length - (-limit).toNat)

/-- The method `getDrawingHistory(limit = 10)`; `none` is an omitted argument.
`Array.prototype.sort` sorts the array in place and is stable, so the sorted
list is also the new content of `mockStorage`. -/
def getDrawingHistory (s : FirebaseManager) (limit : Option ℤ) :
    Except StoreError (List DrawingRecord) × FirebaseManager :=
  if !s.isInitialized then (.error .notReady, s)
  else
    let sorted := s.mockStorage.insertionSort newestFirst
    (.ok (slice0 sorted (limit.getD 10)), { s with mockStorage := sorted })

/-- The call `arr.findIndex(p)`; `none` stands for the result `-1`. -/
def findIndex {α : Type} (p : α → Bool) : List α → Option ℕ
  | [] => none
  | a :: l => if p a then some 0 else (findIndex p l).map (· + 1)

/-- The method `deleteDrawing(id)`; `splice(index, 1)` removes the entry at
`index`. -/
def deleteDrawing (s : FirebaseManager) (id : String) :
    Except StoreError Bool × FirebaseManager :=
  if !s.isInitialized then (.error .notReady, s)
  else
    match findIndex (fun record => record.id == id) s.mockStorage with
    | some index => (.ok true, { s with mockStorage := s.mockStorage.eraseIdx index })
    | none => (.error .notFound, s)

/-- The object returned by `exportData()` and passed to `importData`; `data` is
`none` when the field is missing or is not an array. -/
structure ExportedData where
  exportDate : ℤ
  version : String
  data : Option (List DrawingRecord)
  deriving DecidableEq, Repr

/-- The method `exportData()`, called at the instant `date`. -/
def exportData (s : FirebaseManager) (date : ℤ) : ExportedData :=
  { exportDate := date, version := "1.0", data := some s.mockStorage }

/-- The method `importData(exportedData)`; `none` is a null or undefined
argument.  An array, also an empty one, is truthy. -/
def importData (s : FirebaseManager) (exportedData : Option ExportedData) :
    Except StoreError Bool × FirebaseManager :=
  match exportedData.bind (fun e => e.data) with
  | some records => (.ok true, { s with mockStorage := s.mockStorage ++ records })
  | none => (.error .invalidFormat, s)

/-- A signed binary64 value, in units of `2^-1074`, rounded from the integer
number of units `z`; rounding is symmetric in the sign. -/
def roundInt (z : ℤ) : ℤ :=
  if z < 0 then -((roundRat z.natAbs 1 : ℕ) : ℤ) else ((roundRat z.natAbs 1 : ℕ) : ℤ)

/-- The binary64 value of the integer `k`. -/
def ofInt (k : ℤ) : ℤ := roundInt (k * (one : ℤ))

/-- JavaScript `x + y` on signed values. -/
def faddInt (x y : ℤ) : ℤ := roundInt (x + y)

/-- JavaScript `x / y` for a signed `x` and a positive `y`. -/
def fdivInt (x : ℤ) (y : ℕ) : ℤ :=
  if x < 0 then -((roundRat (x.natAbs * one) y : ℕ) : ℤ)
  else ((roundRat (x.natAbs * one) y : ℕ) : ℤ)

/-- `Math.round(x)` on a signed value: `floor(x + 1/2)`. -/
def mathRoundInt (x : ℤ) : ℤ := (2 * x + (one : ℤ)) / (2 * (one : ℤ))

/-- The scores kept by
`filter(record => record.analysisResult && record.analysisResult.score)` and
read by `map(record => record.analysisResult.score)`: a number is truthy when it
is not zero. -/
def truthyScores (records : List DrawingRecord) : List ℤ :=
  records.filterMap fun record =>
    match record.analysisResult with
    | none => none
    | some a =>
      match a.score with
      | none => none
      | some v => if v = 0 then none else some v

/-- The fields `totalDrawings`, `averageScore` and `lastDrawing` of the object
returned by `getStatistics()`; `lastDrawing` is `none` for `null`.  The fields
`todayDrawings` and `popularFishTypes` are not embedded. -/
structure Statistics where
  totalDrawings : ℕ
  averageScore : ℤ
  lastDrawing : Option ℤ
  deriving DecidableEq, Repr

/-- The computation
`scores.length > 0 ? Math.round(scores.reduce((a, b) => a + b, 0) / scores.length) : 0`. -/
def averageOf (scores : List ℤ) : ℤ :=
  if 0 < scores.length then
    mathRoundInt
      (fdivInt (scores.foldl (fun a b => faddInt a (ofInt b)) 0) (ofNat scores.length))
  else 0

/-- The method `getStatistics()`; it does not change the store. -/
def getStatistics (s : FirebaseManager) : Except StoreError Statistics :=
  if !s.isInitialized then .error .notReady
  else
    .ok
      { totalDrawings := s.mockStorage.length
        averageScore := averageOf (truthyScores s.mockStorage)
        lastDrawing := s.mockStorage.getLast?.map fun record => record.timestamp }

/-! ### The statistics as the specification reads them -/

/-- The scores of the records whose `analysisResult` has a non-null score. -/
def nonNullScores (records : List DrawingRecord) : List ℤ :=
  records.filterMap fun record => record.analysisResult.bind fun a => a.score

/-- The arithmetic mean rounded half up, `floor(sum / length + 1/2)`, and 0 for
the empty list. -/
def roundedMean (scores : List ℤ) : ℤ :=
  if scores = [] then 0 else (2 * scores.sum + scores.length) / (2 * scores.length)

/-- A store reached from the empty initialised store by `saveDrawing` calls that
read a clock that never runs backwards, and by `deleteDrawing` calls. -/
inductive SavedInOrder : FirebaseManager → Prop where
  | empty : SavedInOrder { isInitialized := true, mockStorage := [] }
  | save (s : FirebaseManager) (env : Env) (d : DrawingData) :
      SavedInOrder s → (∀ r ∈ s.mockStorage, r.timestamp ≤ env.timestamp) →
      SavedInOrder (saveDrawing s env d).2
  | delete (s : FirebaseManager) (id : String) :
      SavedInOrder s → SavedInOrder (deleteDrawing s id).2

/-! ### `FishDatabase` -/

/-- An entry of `fishData`. -/
structure FishInfo where
  description : String
  characteristics : List String
  difficulty : String
  deriving DecidableEq, Repr

/-- The own properties of the object literal `this.fishData`, in the order
written. -/
def fishData : List (String × FishInfo) :=
  [("金鱼", FishInfo.mk "常见的观赏鱼类，通常呈金黄色"
      ["圆润的身体", "较大的眼睛", "优雅的鳍"] "简单"),
   ("鲤鱼", FishInfo.mk "传统的东亚鱼类，象征好运"
      ["流线型身体", "长长的胡须", "大尾鳍"] "中等"),
   ("鲨鱼", FishInfo.mk "海洋中的顶级掠食者"
      ["三角形背鳍", "尖锐的牙齿", "流线型身体"] "困难"),
   ("小丑鱼", FishInfo.mk "色彩鲜艳的热带鱼"
      ["橙色身体", "白色条纹", "圆润形状"] "中等")]

/-- The default object of `getFishInfo`. -/
def defaultFishInfo : FishInfo :=
  FishInfo.mk "一种鱼类" ["具有鱼类的基本特征"] "未知"

/-- The property names an object literal inherits from `Object.prototype` in a
browser; each holds a function or, for `__proto__`, the prototype object, all
truthy. -/
def objectPrototypeKeys : List String :=
  ["constructor", "__defineGetter__", "__defineSetter__", "hasOwnProperty",
   "__lookupGetter__", "__lookupSetter__", "isPrototypeOf", "propertyIsEnumerable",
   "toString", "valueOf", "__proto__", "toLocaleString"]

/-- The value of the expression `this.fishData[fishType] || {...}`: an entry of
the table or the default object, or the member of `Object.prototype` of that
name. -/
inductive FishLookup where
  | info (entry : FishInfo)
  | inherited (name : String)
  deriving DecidableEq, Repr

/-- The property read `this.fishData[fishType]`: an own property, else a
property found on the prototype, else `undefined` (`none`). -/
def fishDataGet (fishType : String) : Option FishLookup :=
  match fishData.lookup fishType with
  | some entry => some (.info entry)
  | none => if fishType ∈ objectPrototypeKeys then some (.inherited fishType) else none

/-- The method `getFishInfo(fishType)`; every value `fishDataGet` finds is
truthy. -/
def getFishInfo (fishType : String) : FishLookup :=
  match fishDataGet fishType with
  | some v => v
  | none => .info defaultFishInfo

/-- The method `getAllFishTypes()`: `Object.keys` lists the own keys in the
order written. -/
def getAllFishTypes : List String := fishData.map fun e => e.1

/-! ### Sample inputs -/

/-- A record with the given id and instant. -/
def sampleRecord (id : String) (t : ℤ) : DrawingRecord :=
  { id := id, timestamp := t, imageData := "data:image/png;base64,AAAA",
    analysisResult := none, userAgent := "ua", viewport := (800, 600) }

/-- An initialised store holding three records saved in the order of their instants. -/
def sampleStore : FirebaseManager :=
  { isInitialized := true
    mockStorage := [sampleRecord "a" 1000, sampleRecord "b" 2000, sampleRecord "c" 3000] }

/-- An initialised store holding two records, the older one first. -/
def twoRecordStore : FirebaseManager :=
  { isInitialized := true, mockStorage := [sampleRecord "a" 1000, sampleRecord "b" 2000] }

/-- A feature set that takes the first branch. -/
def sampleFeatures : FeatureSet :=
  { coverage := 20, complexity := 20, pixelCount := 1000, edgeCount := 200, strokeCount := 4 }

/-- Every draw is 0. -/
def zeroDraws : ℕ → ℕ := fun _ => 0

/-- Every draw is `127/128`, except the fourth, which is 0. -/
def highDraws : ℕ → ℕ := fun i => if i = 3 then 0 else one - one / 128

/-- Every draw is `127/128`. -/
def allHighDraws : ℕ → ℕ := fun _ => one - one / 128

/-- A raster of 8 x 5 pixels whose first 23 pixels are opaque and whose other 17
pixels are transparent. -/
def tieImage : ImageData :=
  { data := (List.replicate 23 [0, 0, 0, 255]).flatten ++ List.replicate (17 * 4) 0
    width := 8
    height := 5 }

/-- A raster of 3 x 3 pixels with an opaque centre pixel. -/
def dotImage : ImageData :=
  { data := (List.replicate 4 [0, 0, 0, 0]).flatten ++ [0, 0, 0, 255] ++
      (List.replicate 4 [0, 0, 0, 0]).flatten
    width := 3
    height := 3 }

/-- A record with the given id, instant and score. -/
def scoredRecord (id : String) (t : ℤ) (score : ℤ) : DrawingRecord :=
  { id := id, timestamp := t, imageData := "data:image/png;base64,AAAA",
    analysisResult := some { fishType := none, score := some score },
    userAgent := "ua", viewport := (800, 600) }

/-- An initialised store with one record of score 0 and one of score 10. -/
def zeroScoreStore : FirebaseManager :=
  { isInitialized := true, mockStorage := [scoredRecord "a" 1000 0, scoredRecord "b" 2000 10] }

/-- The empty initialised store. -/
def emptyStore : FirebaseManager := { isInitialized := true, mockStorage := [] }

/-- An export blob whose records are listed newest first. -/
def newestFirstBlob : ExportedData :=
  { exportDate := 5000, version := "1.0"
    data := some [sampleRecord "b" 2000, sampleRecord "a" 1000] }

/-- Environment readings of a save at clock reading 1000 with suffix `abc`. -/
def sampleEnv : Env :=
  { now := 1000, suffix := "abc", timestamp := 1000, userAgent := "ua",
    innerWidth := 800, innerHeight := 600 }

/-- A drawing without analysis. -/
def sampleDrawing : DrawingData :=
  { imageData := "data:image/png;base64,AAAA", analysisResult := none }

/-- Environment readings of a save at clock reading 2000 with suffix `def`. -/
def laterEnv : Env :=
  { now := 2000, suffix := "def", timestamp := 2000, userAgent := "ua",
    innerWidth := 800, innerHeight := 600 }

/-- Environment readings of a save at clock reading 3000 with suffix `ghi`. -/
def latestEnv : Env :=
  { now := 3000, suffix := "ghi", timestamp := 3000, userAgent := "ua",
    innerWidth := 800, innerHeight := 600 }

/-- The empty initialised store after a save at instant 1000 and a save at
instant 2000. -/
def savedTwiceStore : FirebaseManager :=
  (saveDrawing (saveDrawing emptyStore sampleEnv sampleDrawing).2 laterEnv sampleDrawing).2

/-- The store `savedTwiceStore` after the deletion of its first record and a
further save at instant 3000. -/
def savedDeletedSavedStore : FirebaseManager :=
  (saveDrawing (deleteDrawing savedTwiceStore "drawing_1000_abc").2 latestEnv sampleDrawing).2

/-- A raster of 3 x 3 opaque pixels. -/
def opaqueImage : ImageData :=
  { data := (List.replicate 9 [0, 0, 0, 255]).flatten, width := 3, height := 3 }

/-- A raster of 2 x 2 transparent pixels. -/
def blankImage : ImageData :=
  { data := List.replicate 16 0, width := 2, height := 2 }

/-- The features of a raster without covered pixels. -/
def blankFeatures : FeatureSet :=
  { coverage := 0, complexity := 0, pixelCount := 0, edgeCount := 0, strokeCount := 1 }

/-- Every draw is `127/128`, except the third, which is 0. -/
def highDrawsThird : ℕ → ℕ := fun i => if i = 2 then 0 else one - one / 128

/-! ## Theorems -/

/-! ### binary64 rounding -/

theorem bitLenAux_spec (fuel : ℕ) : ∀ n : ℕ, n ≤ fuel →
    n < 2 ^ bitLenAux fuel n ∧ (n ≠ 0 → 2 ^ (bitLenAux fuel n - 1) ≤ n) := by
  induction fuel with
  | zero =>
    intro n hn
    have : n = 0 := by omega
    subst this
    simp [bitLenAux]
  | succ f ih =>
    intro n hn
    by_cases h0 : n = 0
    · subst h0; simp [bitLenAux]
    · have hhalf : n / 2 ≤ f := by omega
      obtain ⟨h1, h2⟩ := ih (n / 2) hhalf
      simp only [bitLenAux, h0, if_false, Nat.add_sub_cancel]
      refine ⟨?_, fun _ => ?_⟩
      · rw [pow_succ]; omega
      · by_cases hh : n / 2 = 0
        · have : bitLenAux f (n / 2) = 0 := by
            rw [hh]; cases f <;> simp [bitLenAux]
          rw [this]; simp; omega
        · have h3 := h2 hh
          have : bitLenAux f (n / 2) = (bitLenAux f (n / 2) - 1) + 1 := by
            have : bitLenAux f (n / 2) ≠ 0 := by
              intro h; rw [h] at h1; simp at h1; omega
            omega
          rw [this, pow_succ]; omega

theorem lt_two_pow_bitLen (n : ℕ) : n < 2 ^ bitLen n :=
  (bitLenAux_spec n n le_rfl).1

theorem two_pow_bitLen_le {n : ℕ} (h : n ≠ 0) : 2 ^ (bitLen n - 1) ≤ n :=
  (bitLenAux_spec n n le_rfl).2 h

theorem bitLen_le_iff (n b : ℕ) : bitLen n ≤ b ↔ n < 2 ^ b := by
  constructor
  · intro h
    exact lt_of_lt_of_le (lt_two_pow_bitLen n) (Nat.pow_le_pow_right (by norm_num) h)
  · intro h
    by_contra hc
    push_neg at hc
    have hn : n ≠ 0 := by
      rintro rfl
      have : bitLen 0 = 0 := by simp [bitLen, bitLenAux]
      omega
    have h1 := two_pow_bitLen_le hn
    have h2 : 2 ^ b ≤ 2 ^ (bitLen n - 1) := Nat.pow_le_pow_right (by norm_num) (by omega)
    omega

theorem bitLen_mono {m n : ℕ} (h : m ≤ n) : bitLen m ≤ bitLen n := by
  rw [bitLen_le_iff]
  exact lt_of_le_of_lt h (lt_two_pow_bitLen n)

theorem rneDiv_bounds (n D : ℕ) (hD : 0 < D) :
    2 * rneDiv n D * D ≤ 2 * n + D ∧ 2 * n ≤ 2 * rneDiv n D * D + D := by
  have h1 := Nat.div_add_mod n D
  have h2 := Nat.mod_lt n hD
  unfold rneDiv
  simp only
  generalize n / D = q at *
  generalize n % D = r at *
  subst h1
  split_ifs with ha hb
  · constructor <;> nlinarith
  · constructor <;> nlinarith
  · have : 2 * r = D := by omega
    rcases Nat.mod_two_eq_zero_or_one q with h | h <;> rw [h] <;> constructor <;> nlinarith

theorem div_le_div_of_cross {n₁ D₁ n₂ D₂ : ℕ} (h₁ : 0 < D₁) (h₂ : 0 < D₂)
    (h : n₁ * D₂ ≤ n₂ * D₁) : n₁ / D₁ ≤ n₂ / D₂ := by
  rw [Nat.le_div_iff_mul_le h₂]
  have : n₁ / D₁ * D₁ ≤ n₁ := Nat.div_mul_le_self n₁ D₁
  have h3 : (n₁ / D₁ * D₂) * D₁ ≤ n₂ * D₁ := by nlinarith
  exact Nat.le_of_mul_le_mul_right h3 h₁

theorem rneDiv_mono {n₁ D₁ n₂ D₂ : ℕ} (h₁ : 0 < D₁) (h₂ : 0 < D₂)
    (h : n₁ * D₂ ≤ n₂ * D₁) : rneDiv n₁ D₁ ≤ rneDiv n₂ D₂ := by
  have hq := div_le_div_of_cross h₁ h₂ h
  have e1 := Nat.div_add_mod n₁ D₁
  have e2 := Nat.div_add_mod n₂ D₂
  have r1 := Nat.mod_lt n₁ h₁
  have r2 := Nat.mod_lt n₂ h₂
  unfold rneDiv
  simp only
  generalize n₁ / D₁ = q₁ at *
  generalize n₁ % D₁ = r₁ at *
  generalize n₂ / D₂ = q₂ at *
  generalize n₂ % D₂ = s₂ at *
  subst e1 e2
  rcases Nat.lt_or_ge q₁ q₂ with hlt | hge
  · have := Nat.mod_two_eq_zero_or_one q₁
    split_ifs <;> omega
  · have hqq : q₁ = q₂ := le_antisymm hq hge
    subst hqq
    have hr : r₁ * D₂ ≤ s₂ * D₁ := by nlinarith
    split_ifs with a b c d c d
    · exact le_rfl
    · omega
    · omega
    · exfalso; nlinarith
    · exact le_rfl
    · exfalso; nlinarith
    · exfalso; nlinarith
    · omega
    · exact le_rfl

theorem rneDiv_mul (c D : ℕ) (hD : 0 < D) : rneDiv (c * D) D = c := by
  unfold rneDiv
  simp [Nat.mul_div_cancel _ hD, hD]

theorem rneDiv_le_of_le {n D c : ℕ} (hD : 0 < D) (h : n ≤ c * D) : rneDiv n D ≤ c := by
  have := @rneDiv_mono n D (c * D) D hD hD (by nlinarith)
  rwa [rneDiv_mul c D hD] at this

theorem le_rneDiv_of_le {n D c : ℕ} (hD : 0 < D) (h : c * D ≤ n) : c ≤ rneDiv n D := by
  have := @rneDiv_mono (c * D) D n D hD hD (by nlinarith)
  rwa [rneDiv_mul c D hD] at this


theorem roundRat_eq (n d : ℕ) :
    roundRat n d = rneDiv n (d * 2 ^ (bitLen (n / d) - 53)) * 2 ^ (bitLen (n / d) - 53) := by
  simp [roundRat, Nat.shiftLeft_eq]

theorem roundRat_mono {n₁ d₁ n₂ d₂ : ℕ} (h₁ : 0 < d₁) (h₂ : 0 < d₂)
    (h : n₁ * d₂ ≤ n₂ * d₁) : roundRat n₁ d₁ ≤ roundRat n₂ d₂ := by
  have hab := div_le_div_of_cross h₁ h₂ h
  have hk := bitLen_mono hab
  rw [roundRat_eq, roundRat_eq]
  set a := n₁ / d₁ with ha
  set b := n₂ / d₂ with hb
  set k₁ := bitLen a - 53 with hk₁
  set k₂ := bitLen b - 53 with hk₂
  have p1 : 0 < 2 ^ k₁ := by positivity
  have p2 : 0 < 2 ^ k₂ := by positivity
  rcases Nat.lt_or_ge k₁ k₂ with hlt | hge
  · -- different binades: the power of two in between is on both grids
    have hbl : bitLen b = k₂ + 53 := by omega
    have hb0 : b ≠ 0 := by
      rintro h0
      rw [h0] at hbl
      simp [bitLen, bitLenAux] at hbl
    have hB : 2 ^ (k₂ + 52) ≤ b := by
      have := two_pow_bitLen_le hb0
      rwa [hbl] at this
    have hbd : b * d₂ ≤ n₂ := Nat.div_mul_le_self n₂ d₂
    have ha' : a < 2 ^ (k₂ + 52) := by
      have h1 : a < 2 ^ (k₁ + 53) := (bitLen_le_iff a (k₁ + 53)).1 (by omega)
      exact lt_of_lt_of_le h1 (Nat.pow_le_pow_right (by norm_num) (by omega))
    have hn1 : n₁ < (a + 1) * d₁ := by
      have := Nat.lt_succ_self (n₁ / d₁)
      rw [Nat.div_lt_iff_lt_mul h₁] at this
      exact this
    have hpow : 2 ^ (k₂ + 52) = 2 ^ (k₂ + 52 - k₁) * 2 ^ k₁ := by
      rw [← pow_add, Nat.sub_add_cancel (by omega)]
    have hpow2 : 2 ^ (k₂ + 52) = 2 ^ 52 * 2 ^ k₂ := by
      rw [← pow_add, Nat.add_comm]
    have hx : rneDiv n₁ (d₁ * 2 ^ k₁) ≤ 2 ^ (k₂ + 52 - k₁) := by
      apply rneDiv_le_of_le (by positivity)
      have : n₁ ≤ 2 ^ (k₂ + 52) * d₁ :=
        le_trans (le_of_lt hn1) (Nat.mul_le_mul_right _ ha')
      calc n₁ ≤ 2 ^ (k₂ + 52) * d₁ := this
        _ = 2 ^ (k₂ + 52 - k₁) * (d₁ * 2 ^ k₁) := by rw [hpow]; ring
    have hy : 2 ^ 52 ≤ rneDiv n₂ (d₂ * 2 ^ k₂) := by
      apply le_rneDiv_of_le (by positivity)
      calc 2 ^ 52 * (d₂ * 2 ^ k₂) = 2 ^ (k₂ + 52) * d₂ := by rw [hpow2]; ring
        _ ≤ b * d₂ := Nat.mul_le_mul_right _ hB
        _ ≤ n₂ := hbd
    calc rneDiv n₁ (d₁ * 2 ^ k₁) * 2 ^ k₁ ≤ 2 ^ (k₂ + 52 - k₁) * 2 ^ k₁ :=
          Nat.mul_le_mul_right _ hx
      _ = 2 ^ 52 * 2 ^ k₂ := by rw [← hpow, hpow2]
      _ ≤ rneDiv n₂ (d₂ * 2 ^ k₂) * 2 ^ k₂ := Nat.mul_le_mul_right _ hy
  · have hkk : k₁ = k₂ := by omega
    rw [hkk]
    apply Nat.mul_le_mul_right
    apply rneDiv_mono (by positivity) (by positivity)
    calc n₁ * (d₂ * 2 ^ k₂) = (n₁ * d₂) * 2 ^ k₂ := by ring
      _ ≤ (n₂ * d₁) * 2 ^ k₂ := Nat.mul_le_mul_right _ h
      _ = n₂ * (d₁ * 2 ^ k₂) := by ring

theorem roundRat_of_dvd {c d : ℕ} (hd : 0 < d) (hc : 2 ^ (bitLen c - 53) ∣ c) :
    roundRat (c * d) d = c := by
  rw [roundRat_eq, Nat.mul_div_cancel _ hd]
  obtain ⟨m, hm⟩ := hc
  have : c * d = m * (d * 2 ^ (bitLen c - 53)) := by
    conv_lhs => rw [hm]
    ring
  rw [this, rneDiv_mul _ _ (by positivity)]
  conv_rhs => rw [hm]
  ring

theorem isDouble_iff (c : ℕ) : isDouble c ↔ 2 ^ (bitLen c - 53) ∣ c := by
  constructor
  · intro h
    unfold isDouble at h
    rw [roundRat_eq] at h
    simp only [Nat.div_one] at h
    exact ⟨rneDiv c (1 * 2 ^ (bitLen c - 53)), by rw [mul_comm]; exact h.symm⟩
  · intro h
    have := @roundRat_of_dvd c 1 Nat.one_pos h
    simpa [isDouble] using this

theorem roundRat_exact {c d : ℕ} (hd : 0 < d) (hc : isDouble c) : roundRat (c * d) d = c :=
  roundRat_of_dvd hd ((isDouble_iff c).1 hc)

theorem roundRat_le_of_le {n d c : ℕ} (hd : 0 < d) (hc : isDouble c) (h : n ≤ c * d) :
    roundRat n d ≤ c := by
  have := @roundRat_mono n d (c * d) d hd hd (by nlinarith)
  rwa [roundRat_exact hd hc] at this

theorem le_roundRat_of_le {n d c : ℕ} (hd : 0 < d) (hc : isDouble c) (h : c * d ≤ n) :
    c ≤ roundRat n d := by
  have := @roundRat_mono (c * d) d n d hd hd (by nlinarith)
  rwa [roundRat_exact hd hc] at this

/-- Relative error of one rounding in the normal range: at most 2^-53. -/
theorem roundRat_err {n d : ℕ} (hd : 0 < d) (hn : 2 ^ 52 * d ≤ n) :
    roundRat n d * d * 2 ^ 53 ≤ n * (2 ^ 53 + 1) ∧
      n * (2 ^ 53 - 1) ≤ roundRat n d * d * 2 ^ 53 := by
  rw [roundRat_eq]
  set a := n / d with ha
  set k := bitLen a - 53 with hk
  have ha52 : 2 ^ 52 ≤ a := by
    rw [ha, Nat.le_div_iff_mul_le hd]; exact hn
  have ha0 : a ≠ 0 := by
    intro h; rw [h] at ha52; norm_num at ha52
  have hbl : 53 ≤ bitLen a := by
    by_contra hc
    push_neg at hc
    have : a < 2 ^ 52 := (bitLen_le_iff a 52).1 (by omega)
    omega
  have hB : 2 ^ (k + 52) ≤ a := by
    have := two_pow_bitLen_le ha0
    have e : bitLen a - 1 = k + 52 := by omega
    rwa [e] at this
  have had : a * d ≤ n := Nat.div_mul_le_self n d
  obtain ⟨b1, b2⟩ := rneDiv_bounds n (d * 2 ^ k) (by positivity)
  set m := rneDiv n (d * 2 ^ k) with hm
  have hkn : 2 ^ k * 2 ^ 52 * d ≤ n := by
    calc 2 ^ k * 2 ^ 52 * d = 2 ^ (k + 52) * d := by rw [pow_add]
      _ ≤ a * d := Nat.mul_le_mul_right _ hB
      _ ≤ n := had
  constructor
  · nlinarith
  · have : (2:ℕ) ^ 53 - 1 + 1 = 2 ^ 53 := by norm_num
    nlinarith

/-! ### Monotonicity and exactness of the operations -/

set_option exponentiation.threshold 2000 in
theorem one_eq : one = 2 ^ 1074 :=
  Nat.one_shiftLeft 1074

theorem one_pos : 0 < one := by
  rw [one_eq]; positivity

theorem fmul_mono {x y x' y' : ℕ} (hx : x ≤ x') (hy : y ≤ y') : fmul x y ≤ fmul x' y' := by
  unfold fmul
  exact roundRat_mono one_pos one_pos (Nat.mul_le_mul_right _ (Nat.mul_le_mul hx hy))

theorem fadd_mono {x y x' y' : ℕ} (hx : x ≤ x') (hy : y ≤ y') : fadd x y ≤ fadd x' y' := by
  unfold fadd
  exact roundRat_mono Nat.one_pos Nat.one_pos (by omega)

theorem fdiv_mono_left {x x' y : ℕ} (hy : 0 < y) (hx : x ≤ x') : fdiv x y ≤ fdiv x' y := by
  unfold fdiv
  exact roundRat_mono hy hy (Nat.mul_le_mul_right _ (Nat.mul_le_mul_right _ hx))

theorem ofNat_mono {a b : ℕ} (h : a ≤ b) : ofNat a ≤ ofNat b := by
  unfold ofNat
  exact roundRat_mono Nat.one_pos Nat.one_pos (by simpa using Nat.mul_le_mul_right _ h)

theorem lit_mono {a b d : ℕ} (hd : 0 < d) (h : a ≤ b) : lit a d ≤ lit b d := by
  unfold lit
  exact roundRat_mono hd hd (Nat.mul_le_mul_right _ (Nat.mul_le_mul_right _ h))

theorem mathRound_mono {x y : ℕ} (h : x ≤ y) : mathRound x ≤ mathRound y := by
  unfold mathRound
  exact Nat.div_le_div_right (by omega)

theorem mathFloor_mono {x y : ℕ} (h : x ≤ y) : mathFloor x ≤ mathFloor y := by
  unfold mathFloor
  exact Nat.div_le_div_right h

/-- Rounding depends only on the value of the fraction. -/
theorem roundRat_scale {n d c : ℕ} (hd : 0 < d) (hc : 0 < c) :
    roundRat (n * c) (d * c) = roundRat n d := by
  apply le_antisymm
  · exact roundRat_mono (Nat.mul_pos hd hc) hd (le_of_eq (by ring))
  · exact roundRat_mono hd (Nat.mul_pos hd hc) (le_of_eq (by ring))

theorem isDouble_mul_two_pow {m j : ℕ} (hm : m < 2 ^ 53) : isDouble (m * 2 ^ j) := by
  rw [isDouble_iff]
  have hlt : m * 2 ^ j < 2 ^ (53 + j) := by
    rw [pow_add]
    exact Nat.mul_lt_mul_of_pos_right hm (by positivity)
  have hb : bitLen (m * 2 ^ j) ≤ 53 + j := (bitLen_le_iff _ _).2 hlt
  exact Dvd.dvd.mul_left (Nat.pow_dvd_pow 2 (by omega)) m

theorem isDouble_nat_mul_one {a : ℕ} (ha : a < 2 ^ 53) : isDouble (a * one) := by
  rw [one_eq]; exact isDouble_mul_two_pow ha

theorem ofNat_eq {a : ℕ} (ha : a < 2 ^ 53) : ofNat a = a * one := by
  have := roundRat_exact Nat.one_pos (isDouble_nat_mul_one ha)
  simpa [ofNat] using this

/-- The largest binary64 value below 1 is `1 - 2^-53`. -/
theorem le_pred_one {u : ℕ} (hd : isDouble u) (hu : u < one) : u ≤ one - 1 <<< 1021 := by
  rw [isDouble_iff] at hd
  have h1 : one = 2 ^ 53 * 2 ^ 1021 := by rw [one_eq, ← pow_add]
  have h2 : (2:ℕ) ^ 1073 = 2 ^ 52 * 2 ^ 1021 := by rw [← pow_add]
  have h3 : (2:ℕ) ^ 53 = 2 * 2 ^ 52 := by norm_num
  have hb : bitLen u ≤ 1074 := (bitLen_le_iff u 1074).2 (by rw [← one_eq]; exact hu)
  rw [Nat.one_shiftLeft]
  suffices h : u + 2 ^ 1021 ≤ one by omega
  by_cases hlt : u < 2 ^ 1073
  · rw [h1, h3]
    rw [h2] at hlt
    have hQ : 1 ≤ 2 ^ 52 := Nat.one_le_two_pow
    generalize (2:ℕ) ^ 1021 = P at *
    generalize (2:ℕ) ^ 52 = Q at *
    nlinarith
  · have hb2 : ¬ bitLen u ≤ 1073 := fun h => hlt ((bitLen_le_iff u 1073).1 h)
    have hk : bitLen u - 53 = 1021 := by omega
    rw [hk] at hd
    obtain ⟨m, hm⟩ := hd
    rw [h1, hm] at hu
    rw [h1, hm]
    have hP : 0 < 2 ^ 1021 := by positivity
    generalize (2:ℕ) ^ 1021 = P at *
    have hm2 : m < 2 ^ 53 := by
      by_contra hc
      push_neg at hc
      have : 2 ^ 53 * P ≤ P * m := by rw [mul_comm P m]; exact Nat.mul_le_mul_right P hc
      omega
    have : P * (m + 1) ≤ 2 ^ 53 * P := by
      rw [mul_comm P (m + 1)]; exact Nat.mul_le_mul_right P hm2
    linarith



/-! ### Rounding a double that is close to an exact quotient -/

theorem roundRat_zero (d : ℕ) : roundRat 0 d = 0 := by
  simp [roundRat, rneDiv, bitLen, bitLenAux]

/-- If the double `X` is within half of `1 / D` of the exact quotient `N / D`, then
`Math.round(X)` is the round-half-up of `N / D`, unless `N / D` is half-way
between two integers, where it is that or one less. -/
theorem mathRound_near {X N D : ℕ} (hD : 0 < D)
    (h1 : 2 * (X * D) < 2 * (N * one) + one) (h2 : 2 * (N * one) < 2 * (X * D) + one) :
    ((2 * N + D) % (2 * D) ≠ 0 → mathRound X = (2 * N + D) / (2 * D)) ∧
      ((2 * N + D) % (2 * D) = 0 →
        mathRound X = (2 * N + D) / (2 * D) ∨ mathRound X + 1 = (2 * N + D) / (2 * D)) := by
  have hO : 0 < one := one_pos
  have hdm := Nat.div_add_mod (2 * N + D) (2 * D)
  have hml := Nat.mod_lt (2 * N + D) (show 0 < 2 * D by omega)
  generalize (2 * N + D) / (2 * D) = R at *
  generalize (2 * N + D) % (2 * D) = r at *
  generalize hOo : one = O at *
  have hE : (2 * N + D) * O = (2 * D * R + r) * O := by rw [hdm]
  have upper : 2 * X + O < (R + 1) * (2 * O) := by
    have : (2 * X + O) * D < (R + 1) * (2 * O) * D := by
      have hr : r * O + O ≤ 2 * D * O := by
        have : r + 1 ≤ 2 * D := hml
        nlinarith
      nlinarith
    exact lt_of_mul_lt_mul_right this (Nat.zero_le D)
  unfold mathRound
  rw [hOo]
  constructor
  · intro hr0
    have hr1 : 1 ≤ r := Nat.one_le_iff_ne_zero.2 hr0
    have lower : R * (2 * O) ≤ 2 * X + O := by
      have : R * (2 * O) * D ≤ (2 * X + O) * D := by
        have hr : O ≤ r * O := Nat.le_mul_of_pos_left O hr1
        nlinarith
      exact Nat.le_of_mul_le_mul_right this hD
    exact Nat.div_eq_of_lt_le lower upper
  · intro hr0
    subst hr0
    have hR : 1 ≤ R := by
      by_contra hc
      have : R = 0 := by omega
      subst this
      omega
    obtain ⟨R', rfl⟩ : ∃ R', R = R' + 1 := ⟨R - 1, by omega⟩
    have lower : R' * (2 * O) ≤ 2 * X + O := by
      have : R' * (2 * O) * D ≤ (2 * X + O) * D := by
        have hOD : O ≤ O * D := Nat.le_mul_of_pos_right O hD
        nlinarith
      exact Nat.le_of_mul_le_mul_right this hD
    by_cases hcase : (R' + 1) * (2 * O) ≤ 2 * X + O
    · left
      exact Nat.div_eq_of_lt_le hcase upper
    · right
      push_neg at hcase
      rw [Nat.div_eq_of_lt_le lower hcase]


set_option exponentiation.threshold 2000 in
theorem two_pow_le_one {k : ℕ} (hk : k ≤ 1074) : 2 ^ k ≤ one := by
  rw [one_eq]; exact Nat.pow_le_pow_right (by norm_num) hk

theorem fdiv_ofNat {a b : ℕ} (ha : a < 2 ^ 53) (hb1 : 1 ≤ b) (hb : b < 2 ^ 53) :
    fdiv (ofNat a) (ofNat b) = roundRat (a * one) b := by
  unfold fdiv
  rw [ofNat_eq ha, ofNat_eq hb]
  exact roundRat_scale (by omega) one_pos

theorem fmul_ofNat (x : ℕ) {c : ℕ} (hc : c < 2 ^ 53) :
    fmul x (ofNat c) = roundRat (x * c) 1 := by
  unfold fmul
  rw [ofNat_eq hc]
  have := @roundRat_scale (x * c) 1 one Nat.one_pos one_pos
  rw [one_mul] at this
  rw [← this]
  congr 1
  ring

/-- Two roundings keep `(a / b) * 100` within half of `1 / b` of `100 * a / b`. -/
theorem percent_close {a b : ℕ} (ha : a ≤ 2 ^ 44) (hb1 : 1 ≤ b) (hb2 : b ≤ 2 ^ 44) :
    2 * (fmul (fdiv (ofNat a) (ofNat b)) (ofNat 100) * b) < 2 * (100 * a * one) + one ∧
      2 * (100 * a * one) < 2 * (fmul (fdiv (ofNat a) (ofNat b)) (ofNat 100) * b) + one := by
  have ha53 : a < 2 ^ 53 := lt_of_le_of_lt ha (by norm_num)
  have hb53 : b < 2 ^ 53 := lt_of_le_of_lt hb2 (by norm_num)
  rw [fdiv_ofNat ha53 hb1 hb53, fmul_ofNat _ (show 100 < 2 ^ 53 by norm_num)]
  have hO : 0 < one := one_pos
  rcases Nat.eq_zero_or_pos a with h0 | hpos
  · subst h0
    simp only [Nat.zero_mul, Nat.mul_zero, roundRat_zero, Nat.zero_add]
    omega
  · have hone : 2 ^ 150 ≤ one := two_pow_le_one (by norm_num)
    have hnA : 2 ^ 52 * b ≤ a * one := by
      calc 2 ^ 52 * b ≤ 2 ^ 52 * 2 ^ 44 := Nat.mul_le_mul_left _ hb2
        _ ≤ 2 ^ 150 := by norm_num
        _ ≤ one := hone
        _ ≤ a * one := Nat.le_mul_of_pos_left _ hpos
    obtain ⟨eA1, eA2⟩ := roundRat_err (by omega : 0 < b) hnA
    generalize roundRat (a * one) b = A at *
    have hA : 2 ^ 52 ≤ A := by
      by_contra hc
      push_neg at hc
      have h1 : A * b * 2 ^ 53 < 2 ^ 52 * 2 ^ 44 * 2 ^ 53 + 1 := by
        have : A * b ≤ 2 ^ 52 * 2 ^ 44 := Nat.mul_le_mul (le_of_lt hc) hb2
        have := Nat.mul_le_mul_right (2 ^ 53) this
        omega
      have h2 : one * (2 ^ 53 - 1) ≤ a * one * (2 ^ 53 - 1) :=
        Nat.mul_le_mul_right _ (Nat.le_mul_of_pos_left _ hpos)
      have h3 : 2 ^ 150 * (2 ^ 53 - 1) ≤ one * (2 ^ 53 - 1) := Nat.mul_le_mul_right _ hone
      norm_num at h1 h3
      omega
    have hnX : 2 ^ 52 * 1 ≤ A * 100 := by omega
    obtain ⟨eX1, eX2⟩ := roundRat_err Nat.one_pos hnX
    generalize roundRat (A * 100) 1 = X at *
    have hU : (2:ℕ) ^ 53 = (2 ^ 53 - 1) + 1 := by norm_num
    have hbound : 200 * a * (2 * 2 ^ 53 + 1) < 2 ^ 53 * 2 ^ 53 := by
      have : 200 * a * (2 * 2 ^ 53 + 1) ≤ 200 * 2 ^ 44 * (2 * 2 ^ 53 + 1) :=
        Nat.mul_le_mul_right _ (Nat.mul_le_mul_left _ ha)
      exact lt_of_le_of_lt this (by norm_num)
    generalize (2:ℕ) ^ 53 - 1 = V at *
    generalize (2:ℕ) ^ 53 = U at *
    generalize one = O at *
    subst hU
    simp only [Nat.mul_one] at eX1 eX2
    have hb' : O * (200 * a * (2 * (V + 1) + 1)) < O * ((V + 1) * (V + 1)) :=
      Nat.mul_lt_mul_of_pos_left hbound hO
    have p1 : X * (V + 1) * (b * (V + 1)) ≤ A * 100 * (V + 1 + 1) * (b * (V + 1)) :=
      Nat.mul_le_mul_right _ eX1
    have p2 : 100 * (V + 1 + 1) * (A * b * (V + 1)) ≤ 100 * (V + 1 + 1) * (a * O * (V + 1 + 1)) :=
      Nat.mul_le_mul_left _ eA1
    have q1 : A * 100 * V * (b * (V + 1)) ≤ X * (V + 1) * (b * (V + 1)) :=
      Nat.mul_le_mul_right _ eX2
    have q2 : 100 * V * (a * O * V) ≤ 100 * V * (A * b * (V + 1)) :=
      Nat.mul_le_mul_left _ eA2
    constructor
    · by_contra hc
      push_neg at hc
      have hc' := Nat.mul_le_mul_right ((V + 1) * (V + 1)) hc
      nlinarith
    · by_contra hc
      push_neg at hc
      have hc' := Nat.mul_le_mul_right ((V + 1) * (V + 1)) hc
      nlinarith


/-- The percentage computed by `extractBasicFeatures` from the counts `a` and `b`
is the round-half-up of `100 * a / b`, except at an exact tie, where it is that
value or one less. -/
theorem percent_round {a b : ℕ} (ha : a ≤ 2 ^ 44) (hb1 : 1 ≤ b) (hb2 : b ≤ 2 ^ 44) :
    (¬ isTie a b →
        mathRound (fmul (fdiv (ofNat a) (ofNat b)) (ofNat 100)) = roundPercent a b) ∧
      (isTie a b →
        mathRound (fmul (fdiv (ofNat a) (ofNat b)) (ofNat 100)) = roundPercent a b ∨
          mathRound (fmul (fdiv (ofNat a) (ofNat b)) (ofNat 100)) + 1 = roundPercent a b) := by
  obtain ⟨h1, h2⟩ := percent_close ha hb1 hb2
  have h := @mathRound_near (fmul (fdiv (ofNat a) (ofNat b)) (ofNat 100)) (100 * a) b
    (by omega) h1 h2
  have e : 2 * (100 * a) + b = 200 * a + b := by ring
  rw [e] at h
  exact h

theorem mathRound_nat_mul_one (k : ℕ) : mathRound (k * one) = k := by
  unfold mathRound
  apply Nat.div_eq_of_lt_le
  · nlinarith [one_pos]
  · nlinarith [one_pos]

/-- `Math.round(edgeCount / 50)` is the round-half-up of the exact quotient. -/
theorem stroke_round {e : ℕ} (he : e ≤ 2 ^ 44) :
    mathRound (fdiv (ofNat e) (ofNat 50)) = (e + 25) / 50 := by
  have he53 : e < 2 ^ 53 := lt_of_le_of_lt he (by norm_num)
  rw [fdiv_ofNat he53 (by norm_num) (by norm_num)]
  have hO : 0 < one := one_pos
  by_cases htie : (2 * e + 50) % (2 * 50) = 0
  · -- the quotient is a half-integer, which is a double
    obtain ⟨k, hk⟩ : ∃ k, e = 50 * k + 25 := ⟨e / 50, by omega⟩
    have h1 : one = 2 * 2 ^ 1073 := by rw [one_eq, ← pow_succ']
    have hc : isDouble ((2 * k + 1) * 2 ^ 1073) :=
      isDouble_mul_two_pow (by omega)
    have hP : 0 < 2 ^ 1073 := by positivity
    generalize (2:ℕ) ^ 1073 = P at *
    have e3 : e * one = (2 * k + 1) * P * 50 := by rw [hk, h1]; ring
    have e2 : (e + 25) / 50 = k + 1 := by omega
    rw [e3, roundRat_exact (show 0 < 50 by norm_num) hc, e2]
    unfold mathRound
    rw [h1]
    apply Nat.div_eq_of_lt_le
    · nlinarith
    · nlinarith
  · have key : 2 * (roundRat (e * one) 50 * 50) < 2 * (e * one) + one ∧
        2 * (e * one) < 2 * (roundRat (e * one) 50 * 50) + one := by
      rcases Nat.eq_zero_or_pos e with h0 | hpos
      · subst h0
        simp only [Nat.zero_mul, Nat.mul_zero, roundRat_zero, Nat.zero_add]
        omega
      · have hone : 2 ^ 150 ≤ one := two_pow_le_one (by norm_num)
        have hn : 2 ^ 52 * 50 ≤ e * one := by
          calc 2 ^ 52 * 50 ≤ 2 ^ 150 := by norm_num
            _ ≤ one := hone
            _ ≤ e * one := Nat.le_mul_of_pos_left _ hpos
        obtain ⟨e1, e2⟩ := roundRat_err (show 0 < 50 by norm_num) hn
        generalize roundRat (e * one) 50 = X at *
        have hU : (2:ℕ) ^ 53 = (2 ^ 53 - 1) + 1 := by norm_num
        have hbound : 2 * e < 2 ^ 53 - 1 := by
          have : (2:ℕ) ^ 44 * 2 < 2 ^ 53 - 1 := by norm_num
          omega
        generalize (2:ℕ) ^ 53 - 1 = V at *
        generalize (2:ℕ) ^ 53 = U at *
        generalize one = O at *
        subst hU
        have hb' : O * (2 * e) < O * V := Nat.mul_lt_mul_of_pos_left hbound hO
        constructor
        · by_contra hc
          push_neg at hc
          have hc' := Nat.mul_le_mul_right (V + 1) hc
          nlinarith
        · by_contra hc
          push_neg at hc
          have hc' := Nat.mul_le_mul_right (V + 1) hc
          nlinarith
    have h := (@mathRound_near (roundRat (e * one) 50) e 50 (by norm_num) key.1 key.2).1 htie
    rw [h]
    omega

theorem ofNat_100 : ofNat 100 = 100 * one := ofNat_eq (by norm_num)

theorem isDouble_one : isDouble one := by
  have := @isDouble_nat_mul_one 1 (by norm_num)
  rwa [one_mul] at this

theorem one_le_ofNat {b : ℕ} (hb : 1 ≤ b) : one ≤ ofNat b := by
  have h := ofNat_mono hb
  rwa [ofNat_eq (show 1 < 2 ^ 53 by norm_num), one_mul] at h

/-- A percentage of a part of a whole is at most 100, for counts of any size. -/
theorem percent_le_100 {a b : ℕ} (hab : a ≤ b) (hb : 1 ≤ b) :
    mathRound (fmul (fdiv (ofNat a) (ofNat b)) (ofNat 100)) ≤ 100 := by
  have hbpos : 0 < ofNat b := lt_of_lt_of_le one_pos (one_le_ofNat hb)
  have h1 : fdiv (ofNat a) (ofNat b) ≤ one := by
    unfold fdiv
    apply roundRat_le_of_le hbpos isDouble_one
    rw [mul_comm]
    exact Nat.mul_le_mul_left _ (ofNat_mono hab)
  have h2 : fmul (fdiv (ofNat a) (ofNat b)) (ofNat 100) ≤ 100 * one := by
    unfold fmul
    rw [ofNat_100]
    apply roundRat_le_of_le one_pos (isDouble_nat_mul_one (by norm_num))
    calc fdiv (ofNat a) (ofNat b) * (100 * one) ≤ one * (100 * one) :=
          Nat.mul_le_mul_right _ h1
      _ = 100 * one * one := by ring
  have h3 := mathRound_mono h2
  rwa [mathRound_nat_mul_one] at h3


/-! ### The scanning loop -/

theorem getElem?_alphaAt {img : ImageData} (hw : WellFormed img) {x y : ℕ}
    (hx : x < img.width) (hy : y < img.height) :
    img.data[4 * (y * img.width + x) + 3]? = some (alphaAt img x y) := by
  have hlt : y * img.width + x < img.width * img.height := by
    calc y * img.width + x < y * img.width + img.width := by omega
      _ = (y + 1) * img.width := by ring
      _ ≤ img.height * img.width := Nat.mul_le_mul_right _ hy
      _ = img.width * img.height := by ring
  have hlen : 4 * (y * img.width + x) + 3 < img.data.length := by
    rw [hw.2.2]; omega
  unfold alphaAt
  rw [List.getElem?_eq_getElem hlen, List.getD_eq_getElem _ _ hlen]

/-- The pixel column and row of the `k`-th loop iteration. -/
theorem scanStep_eq {img : ImageData} (hw : WellFormed img) (acc : ℕ × ℕ) {k : ℕ}
    (hk : k < img.width * img.height) :
    scanStep img acc k =
      (acc.1 + if isCovered img (k % img.width, k / img.width) then 1 else 0,
        acc.2 + if isEdgePixel img (k % img.width, k / img.width) then 1 else 0) := by
  have hwpos : 0 < img.width := hw.1
  have hx : k % img.width < img.width := Nat.mod_lt _ hwpos
  have hy : k / img.width < img.height := by
    rw [Nat.div_lt_iff_lt_mul hwpos, mul_comm]; exact hk
  have hk' : k / img.width * img.width + k % img.width = k := by
    rw [mul_comm]; exact Nat.div_add_mod k img.width
  generalize hxe : k % img.width = x at *
  generalize hye : k / img.width = y at *
  have h0 : img.data[4 * k + 3]? = some (alphaAt img x y) := by
    rw [← hk']; exact getElem?_alphaAt hw hx hy
  unfold scanStep
  simp only [h0, hxe, hye]
  by_cases hcov : 0 < alphaAt img x y
  · have hc : isCovered img (x, y) := hcov
    rw [if_pos hcov, if_pos hc]
    by_cases hint : 0 < x ∧ 0 < y ∧ (x : ℤ) < (img.width : ℤ) - 1 ∧
        (y : ℤ) < (img.height : ℤ) - 1
    · rw [if_pos hint]
      obtain ⟨hx0, hy0, hx1, hy1⟩ := hint
      have hx1' : x + 1 < img.width := by omega
      have hy1' : y + 1 < img.height := by omega
      have hyw : img.width ≤ y * img.width := Nat.le_mul_of_pos_left _ hy0
      have e1 : 4 * k - 4 + 3 = 4 * (y * img.width + (x - 1)) + 3 := by omega
      have e2 : 4 * k + 4 + 3 = 4 * (y * img.width + (x + 1)) + 3 := by omega
      have e3 : 4 * k - img.width * 4 + 3 = 4 * ((y - 1) * img.width + x) + 3 := by
        rw [Nat.sub_mul]; omega
      have e4 : 4 * k + img.width * 4 + 3 = 4 * ((y + 1) * img.width + x) + 3 := by
        rw [Nat.add_mul]; omega
      rw [e1, e2, e3, e4, getElem?_alphaAt hw (by omega) hy, getElem?_alphaAt hw hx1' hy,
        getElem?_alphaAt hw hx (by omega), getElem?_alphaAt hw hx hy1']
      by_cases hedge : isEdgePixel img (x, y)
      · have : hasEdge [some (alphaAt img (x - 1) y), some (alphaAt img (x + 1) y),
            some (alphaAt img x (y - 1)), some (alphaAt img x (y + 1))]
            (alphaAt img x y) = true := by
          have := hedge.2.2.2.2.2
          simpa [hasEdge, sharp] using this
        rw [this, if_pos hedge]; simp
      · have : hasEdge [some (alphaAt img (x - 1) y), some (alphaAt img (x + 1) y),
            some (alphaAt img x (y - 1)), some (alphaAt img x (y + 1))]
            (alphaAt img x y) = false := by
          have hne : ¬ (sharp (alphaAt img x y) (alphaAt img (x - 1) y) ∨
              sharp (alphaAt img x y) (alphaAt img (x + 1) y) ∨
              sharp (alphaAt img x y) (alphaAt img x (y - 1)) ∨
              sharp (alphaAt img x y) (alphaAt img x (y + 1))) :=
            fun h => hedge ⟨hc, hx0, hx1', hy0, hy1', h⟩
          simpa [hasEdge, sharp] using hne
        rw [this, if_neg hedge]; simp
    · rw [if_neg hint]
      have hedge : ¬ isEdgePixel img (x, y) := by
        rintro ⟨_, h1, h2, h3, h4, _⟩
        exact hint ⟨h1, h3, by simp only at h2; omega, by simp only at h4; omega⟩
      rw [if_neg hedge]; rfl
  · have hc : ¬ isCovered img (x, y) := hcov
    have hedge : ¬ isEdgePixel img (x, y) := fun h => hc h.1
    rw [if_neg hcov, if_neg hc, if_neg hedge]; rfl

theorem foldl_scanStep {img : ImageData} (hw : WellFormed img) (n : ℕ)
    (hn : n ≤ img.width * img.height) :
    (List.range n).foldl (scanStep img) (0, 0) =
      (((Finset.range n).filter
          (fun k => isCovered img (k % img.width, k / img.width))).card,
        ((Finset.range n).filter
          (fun k => isEdgePixel img (k % img.width, k / img.width))).card) := by
  induction n with
  | zero => simp
  | succ m ih =>
    rw [List.range_succ, List.foldl_append, ih (by omega)]
    simp only [List.foldl_cons, List.foldl_nil]
    rw [scanStep_eq hw _ (by omega), Finset.range_succ, Finset.filter_insert,
      Finset.filter_insert]
    by_cases h1 : isCovered img (m % img.width, m / img.width) <;>
      by_cases h2 : isEdgePixel img (m % img.width, m / img.width) <;>
      simp [h1, h2, Finset.card_insert_of_not_mem]

/-- Counting over the linear pixel index is counting over columns and rows. -/
theorem card_filter_index (w h : ℕ) (hw : 0 < w) (P : ℕ × ℕ → Prop) [DecidablePred P] :
    ((Finset.range (w * h)).filter (fun k => P (k % w, k / w))).card =
      ((Finset.range w ×ˢ Finset.range h).filter P).card := by
  apply Finset.card_bij (fun k _ => (k % w, k / w))
  · intro k hk
    simp only [Finset.mem_filter, Finset.mem_range] at hk
    simp only [Finset.mem_filter, Finset.mem_product, Finset.mem_range]
    refine ⟨⟨Nat.mod_lt _ hw, ?_⟩, hk.2⟩
    rw [Nat.div_lt_iff_lt_mul hw, mul_comm]; exact hk.1
  · intro a _ b _ hab
    simp only [Prod.mk.injEq] at hab
    rw [← Nat.div_add_mod a w, ← Nat.div_add_mod b w, hab.1, hab.2]
  · rintro ⟨x, y⟩ hxy
    simp only [Finset.mem_filter, Finset.mem_product, Finset.mem_range] at hxy
    obtain ⟨⟨hx, hy⟩, hP⟩ := hxy
    have e1 : (y * w + x) % w = x := by
      rw [Nat.mul_add_mod_of_lt hx]
    have e2 : (y * w + x) / w = y := by
      rw [mul_comm, Nat.mul_add_div hw, Nat.div_eq_of_lt hx, add_zero]
    refine ⟨y * w + x, ?_, ?_⟩
    · simp only [Finset.mem_filter, Finset.mem_range, e1, e2]
      refine ⟨?_, hP⟩
      calc y * w + x < y * w + w := by omega
        _ = (y + 1) * w := by ring
        _ ≤ h * w := Nat.mul_le_mul_right _ hy
        _ = w * h := by ring
    · simp only [e1, e2]

/-- The loop counts the covered pixels and the edge pixels. -/
theorem scan_eq {img : ImageData} (hw : WellFormed img) :
    scan img = (coveredCount img, edgePixelCount img) := by
  have hn : (img.data.length + 3) / 4 = img.width * img.height := by
    rw [hw.2.2]; omega
  unfold scan coveredCount edgePixelCount pixels
  rw [hn, foldl_scanStep hw _ le_rfl, card_filter_index _ _ hw.1, card_filter_index _ _ hw.1]

theorem edgePixelCount_le_coveredCount (img : ImageData) :
    edgePixelCount img ≤ coveredCount img := by
  unfold edgePixelCount coveredCount
  apply Finset.card_le_card
  intro p hp
  simp only [Finset.mem_filter] at hp ⊢
  exact ⟨hp.1, hp.2.1⟩

theorem coveredCount_le (img : ImageData) : coveredCount img ≤ img.width * img.height := by
  unfold coveredCount pixels
  calc _ ≤ (Finset.range img.width ×ˢ Finset.range img.height).card := Finset.card_filter_le _ _
    _ = img.width * img.height := by simp


/-! ### `extractBasicFeatures` -/

theorem extractBasicFeatures_eq {img : ImageData} (hw : WellFormed img) :
    extractBasicFeatures img =
      some
        { coverage := mathRound (fmul (fdiv (ofNat (coveredCount img))
            (ofNat (img.width * img.height))) (ofNat 100))
          complexity := mathRound (fmul (fdiv (ofNat (edgePixelCount img))
            (ofNat (max (coveredCount img) 1))) (ofNat 100))
          pixelCount := coveredCount img
          edgeCount := edgePixelCount img
          strokeCount := max 1 (mathRound (fdiv (ofNat (edgePixelCount img)) (ofNat 50))) } := by
  have hpos : img.width * img.height ≠ 0 :=
    Nat.pos_iff_ne_zero.1 (Nat.mul_pos hw.1 hw.2.1)
  unfold extractBasicFeatures
  simp only [scan_eq hw, if_neg hpos]

set_option maxRecDepth 100000 in
/-- C1 (counterexample): on the 8 x 5 raster with 23 covered pixels the exact
quotient `100 * 23 / 40` is `57.5`, whose round-half-up is 58 (as is the double
computation of the formula in the order written), but `extractBasicFeatures`
returns coverage 57: the double nearest to `23 / 40` times 100 is just below
`57.5`. -/
theorem c1_coverage_tie_rounds_down :
    WellFormed tieImage ∧
      extractBasicFeatures tieImage =
        some { coverage := 57, complexity := 26, pixelCount := 23, edgeCount := 6,
               strokeCount := 1 } ∧
      roundPercent 23 (tieImage.width * tieImage.height) = 58 ∧
      mathRound (fdiv (fmul (ofNat 100) (ofNat 23))
        (ofNat (tieImage.width * tieImage.height))) = 58 ∧
      ¬ (∃ fs, extractBasicFeatures tieImage = some fs ∧
          fs.coverage = roundPercent fs.pixelCount (tieImage.width * tieImage.height)) := by
  decide

/-- C1 (amended): for every raster buffer with width >= 1, height >= 1, data
holding exactly width*height RGBA pixels and at most 2^44 pixels,
`extractBasicFeatures` returns `pixelCount` = the number of covered pixels,
`edgeCount` = the number of edge pixels, `strokeCount` =
`max(1, round(edgeCount / 50))`, and `coverage` and `complexity` equal to the
round-half-up of `100 * pixelCount / (width*height)` and of
`100 * edgeCount / max(pixelCount, 1)` whenever that exact quotient is not
half-way between two integers; at such a tie the value is the round-half-up or
one less. -/
theorem c1_extractBasicFeatures_counts (img : ImageData) (hw : WellFormed img)
    (hsize : img.width * img.height ≤ 2 ^ 44) :
    ∃ fs : FeatureSet, extractBasicFeatures img = some fs ∧
      fs.pixelCount = coveredCount img ∧
      fs.edgeCount = edgePixelCount img ∧
      fs.strokeCount = max 1 ((fs.edgeCount + 25) / 50) ∧
      (¬ isTie fs.pixelCount (img.width * img.height) →
        fs.coverage = roundPercent fs.pixelCount (img.width * img.height)) ∧
      (isTie fs.pixelCount (img.width * img.height) →
        fs.coverage = roundPercent fs.pixelCount (img.width * img.height) ∨
          fs.coverage + 1 = roundPercent fs.pixelCount (img.width * img.height)) ∧
      (¬ isTie fs.edgeCount (max fs.pixelCount 1) →
        fs.complexity = roundPercent fs.edgeCount (max fs.pixelCount 1)) ∧
      (isTie fs.edgeCount (max fs.pixelCount 1) →
        fs.complexity = roundPercent fs.edgeCount (max fs.pixelCount 1) ∨
          fs.complexity + 1 = roundPercent fs.edgeCount (max fs.pixelCount 1)) := by
  have hp : coveredCount img ≤ 2 ^ 44 := le_trans (coveredCount_le img) hsize
  have he : edgePixelCount img ≤ 2 ^ 44 := le_trans (edgePixelCount_le_coveredCount img) hp
  have ht : 1 ≤ img.width * img.height := Nat.mul_pos hw.1 hw.2.1
  have hm1 : 1 ≤ max (coveredCount img) 1 := le_max_right _ _
  have hm2 : max (coveredCount img) 1 ≤ 2 ^ 44 := max_le hp (by norm_num)
  refine ⟨_, extractBasicFeatures_eq hw, rfl, rfl, ?_, ?_, ?_, ?_, ?_⟩
  · simp only [stroke_round he]
  · exact (percent_round hp ht hsize).1
  · exact (percent_round hp ht hsize).2
  · exact (percent_round he hm1 hm2).1
  · exact (percent_round he hm1 hm2).2

set_option maxRecDepth 100000 in
theorem c1_extractBasicFeatures_counts_witness :
    WellFormed tieImage ∧ tieImage.width * tieImage.height ≤ 2 ^ 44 ∧
      ∃ fs : FeatureSet, extractBasicFeatures tieImage = some fs ∧
        fs.pixelCount = coveredCount tieImage ∧
        fs.edgeCount = edgePixelCount tieImage ∧
        fs.strokeCount = max 1 ((fs.edgeCount + 25) / 50) ∧
        (¬ isTie fs.pixelCount (tieImage.width * tieImage.height) →
          fs.coverage = roundPercent fs.pixelCount (tieImage.width * tieImage.height)) ∧
        (isTie fs.pixelCount (tieImage.width * tieImage.height) →
          fs.coverage = roundPercent fs.pixelCount (tieImage.width * tieImage.height) ∨
            fs.coverage + 1 = roundPercent fs.pixelCount (tieImage.width * tieImage.height)) ∧
        (¬ isTie fs.edgeCount (max fs.pixelCount 1) →
          fs.complexity = roundPercent fs.edgeCount (max fs.pixelCount 1)) ∧
        (isTie fs.edgeCount (max fs.pixelCount 1) →
          fs.complexity = roundPercent fs.edgeCount (max fs.pixelCount 1) ∨
            fs.complexity + 1 = roundPercent fs.edgeCount (max fs.pixelCount 1)) :=
  ⟨by decide, by decide, c1_extractBasicFeatures_counts tieImage (by decide) (by decide)⟩

/-- C2: for every raster buffer, the feature set returned by
`extractBasicFeatures` has integer `coverage` and `complexity` with
`0 <= coverage <= 100` and `0 <= complexity <= 100`, and
`pixelCount <= width*height`. -/
theorem c2_feature_bounds (img : ImageData) (hw : WellFormed img) :
    ∃ fs : FeatureSet, extractBasicFeatures img = some fs ∧
      0 ≤ fs.coverage ∧ fs.coverage ≤ 100 ∧ 0 ≤ fs.complexity ∧ fs.complexity ≤ 100 ∧
      fs.pixelCount ≤ img.width * img.height := by
  have ht : 1 ≤ img.width * img.height := Nat.mul_pos hw.1 hw.2.1
  refine ⟨_, extractBasicFeatures_eq hw, Nat.zero_le _, ?_, Nat.zero_le _, ?_,
    coveredCount_le img⟩
  · exact percent_le_100 (coveredCount_le img) ht
  · exact percent_le_100
      (le_trans (edgePixelCount_le_coveredCount img) (le_max_left _ _)) (le_max_right _ _)

theorem c2_feature_bounds_witness :
    WellFormed dotImage ∧
      ∃ fs : FeatureSet, extractBasicFeatures dotImage = some fs ∧
        0 ≤ fs.coverage ∧ fs.coverage ≤ 100 ∧ 0 ≤ fs.complexity ∧ fs.complexity ≤ 100 ∧
        fs.pixelCount ≤ dotImage.width * dotImage.height :=
  ⟨by decide, c2_feature_bounds dotImage (by decide)⟩

/-! ### `simulateRecognition` -/

theorem ofNat_100_pos : 0 < ofNat 100 := by
  rw [ofNat_100]; exact Nat.mul_pos (by norm_num) one_pos

theorem roundConfidence_mono {c c' : ℕ} (h : c ≤ c') :
    roundConfidence c ≤ roundConfidence c' := by
  unfold roundConfidence
  exact fdiv_mono_left ofNat_100_pos (ofNat_mono (mathRound_mono (fmul_mono h le_rfl)))

/-- The final rounding yields the binary64 value nearest to `k / 100`, where `k`
is `Math.round(confidence * 100)`. -/
theorem roundConfidence_eq_lit {c : ℕ} (h : mathRound (fmul c (ofNat 100)) < 2 ^ 53) :
    roundConfidence c = lit (mathRound (fmul c (ofNat 100))) 100 := by
  unfold roundConfidence fdiv lit
  rw [ofNat_eq h, ofNat_100]
  exact roundRat_scale (by norm_num) one_pos

theorem percent_between {a b u lo hi : ℕ} (hu : u ≤ one)
    (hlo : mathRound (fmul (fadd a (fmul 0 b)) (ofNat 100)) = lo)
    (hhi : mathRound (fmul (fadd a (fmul one b)) (ofNat 100)) = hi) :
    lo ≤ mathRound (fmul (fadd a (fmul u b)) (ofNat 100)) ∧
      mathRound (fmul (fadd a (fmul u b)) (ofNat 100)) ≤ hi := by
  constructor
  · rw [← hlo]
    exact mathRound_mono (fmul_mono (fadd_mono le_rfl (fmul_mono (Nat.zero_le u) le_rfl)) le_rfl)
  · rw [← hhi]
    exact mathRound_mono (fmul_mono (fadd_mono le_rfl (fmul_mono hu le_rfl)) le_rfl)

theorem score_between {a b u lo hi : ℕ} (hu : u ≤ one)
    (hlo : mathRound (fadd a (fmul 0 b)) = lo)
    (hhi : mathRound (fadd a (fmul one b)) = hi) :
    lo ≤ mathRound (fadd a (fmul u b)) ∧ mathRound (fadd a (fmul u b)) ≤ hi := by
  constructor
  · rw [← hlo]
    exact mathRound_mono (fadd_mono le_rfl (fmul_mono (Nat.zero_le u) le_rfl))
  · rw [← hhi]
    exact mathRound_mono (fadd_mono le_rfl (fmul_mono hu le_rfl))

set_option maxRecDepth 100000 in
theorem branch_endpoints :
    (mathRound (fmul (fadd (lit 7 10) (fmul 0 (lit 2 10))) (ofNat 100)) = 70 ∧
      mathRound (fmul (fadd (lit 7 10) (fmul one (lit 2 10))) (ofNat 100)) = 90 ∧
      mathRound (fadd (ofNat 70) (fmul 0 (ofNat 25))) = 70 ∧
      mathRound (fadd (ofNat 70) (fmul one (ofNat 25))) = 95) ∧
    (mathRound (fmul (fadd (lit 6 10) (fmul 0 (lit 2 10))) (ofNat 100)) = 60 ∧
      mathRound (fmul (fadd (lit 6 10) (fmul one (lit 2 10))) (ofNat 100)) = 80 ∧
      mathRound (fadd (ofNat 60) (fmul 0 (ofNat 20))) = 60 ∧
      mathRound (fadd (ofNat 60) (fmul one (ofNat 20))) = 80) ∧
    (mathRound (fmul (fadd (lit 4 10) (fmul 0 (lit 3 10))) (ofNat 100)) = 40 ∧
      mathRound (fmul (fadd (lit 4 10) (fmul one (lit 3 10))) (ofNat 100)) = 70 ∧
      mathRound (fadd (ofNat 40) (fmul 0 (ofNat 30))) = 40 ∧
      mathRound (fadd (ofNat 40) (fmul one (ofNat 30))) = 70) ∧
    (mathRound (fmul (fadd (lit 2 10) (fmul 0 (lit 3 10))) (ofNat 100)) = 20 ∧
      mathRound (fmul (fadd (lit 2 10) (fmul one (lit 3 10))) (ofNat 100)) = 50 ∧
      mathRound (fadd (ofNat 20) (fmul 0 (ofNat 30))) = 20 ∧
      mathRound (fadd (ofNat 20) (fmul one (ofNat 30))) = 50) := by
  decide

set_option maxRecDepth 100000 in
theorem pick_endpoints :
    mathFloor (fmul (one - 1 <<< 1021) (ofNat 4)) = 3 ∧
      mathFloor (fmul (one - 1 <<< 1021) (ofNat 3)) = 2 := by
  decide

theorem pick_four (a b c d : String) {u : ℕ} (hd : isDouble u) (hu : u < one) :
    pick [a, b, c, d] u ∈ [some a, some b, some c, some d] := by
  have h : mathFloor (fmul u (ofNat 4)) ≤ 3 := by
    rw [← pick_endpoints.1]
    exact mathFloor_mono (fmul_mono (le_pred_one hd hu) le_rfl)
  unfold pick
  simp only [List.length_cons, List.length_nil, Nat.zero_add, Nat.reduceAdd]
  generalize mathFloor (fmul u (ofNat 4)) = i at h
  interval_cases i <;> simp

theorem pick_three (a b c : String) {u : ℕ} (hd : isDouble u) (hu : u < one) :
    pick [a, b, c] u ∈ [some a, some b, some c] := by
  have h : mathFloor (fmul u (ofNat 3)) ≤ 2 := by
    rw [← pick_endpoints.2]
    exact mathFloor_mono (fmul_mono (le_pred_one hd hu) le_rfl)
  unfold pick
  simp only [List.length_cons, List.length_nil, Nat.zero_add, Nat.reduceAdd]
  generalize mathFloor (fmul u (ofNat 3)) = i at h
  interval_cases i <;> simp

/-- The four branches of `classifyBranch`, first match wins. -/
theorem classifyBranch_cases (features : FeatureSet) (rnd : ℕ → ℕ) :
    ((15 < features.coverage ∧ 10 < features.complexity) ∧
        classifyBranch features rnd =
          (pick ["金鱼", "鲤鱼", "热带鱼", "神仙鱼"] (rnd 0),
            fadd (lit 7 10) (fmul (rnd 1) (lit 2 10)),
            fadd (ofNat 70) (fmul (rnd 2) (ofNat 25)), 3)) ∨
      ((¬ (15 < features.coverage ∧ 10 < features.complexity) ∧ 8 < features.coverage) ∧
        classifyBranch features rnd =
          (pick ["小鱼", "简单鱼类", "鱼的轮廓"] (rnd 0),
            fadd (lit 6 10) (fmul (rnd 1) (lit 2 10)),
            fadd (ofNat 60) (fmul (rnd 2) (ofNat 20)), 3)) ∨
      ((features.coverage ≤ 8 ∧ 3 < features.coverage) ∧
        classifyBranch features rnd =
          (some "鱼的草图",
            fadd (lit 4 10) (fmul (rnd 0) (lit 3 10)),
            fadd (ofNat 40) (fmul (rnd 1) (ofNat 30)), 2)) ∨
      (features.coverage ≤ 3 ∧
        classifyBranch features rnd =
          (some "需要更多细节",
            fadd (lit 2 10) (fmul (rnd 0) (lit 3 10)),
            fadd (ofNat 20) (fmul (rnd 1) (ofNat 30)), 2)) := by
  unfold classifyBranch
  by_cases h1 : 15 < features.coverage ∧ 10 < features.complexity
  · left; exact ⟨h1, by rw [if_pos h1]⟩
  · by_cases h2 : 8 < features.coverage
    · right; left; exact ⟨⟨h1, h2⟩, by rw [if_neg h1, if_pos h2]⟩
    · by_cases h3 : 3 < features.coverage
      · right; right; left
        exact ⟨⟨by omega, h3⟩, by rw [if_neg h1, if_neg h2, if_pos h3]⟩
      · right; right; right
        exact ⟨by omega, by rw [if_neg h1, if_neg h2, if_neg h3]⟩

/-- Without the override the result is the rounded output of the branch. -/
theorem simulateRecognition_of_not_override {features : FeatureSet} {rnd : ℕ → ℕ}
    (hno : ¬ lit 8 10 < rnd (classifyBranch features rnd).2.2.2) :
    simulateRecognition features rnd =
      { type := (classifyBranch features rnd).1
        confidence := roundConfidence (classifyBranch features rnd).2.1
        score := (mathRound (classifyBranch features rnd).2.2.1 : ℕ) } := by
  unfold simulateRecognition
  simp only [if_neg hno]

/-- With the override the label is a special species and the branch output is
raised and clamped before the final rounding. -/
theorem simulateRecognition_of_override {features : FeatureSet} {rnd : ℕ → ℕ}
    (hov : lit 8 10 < rnd (classifyBranch features rnd).2.2.2) :
    simulateRecognition features rnd =
      { type := pick specialTypes (rnd ((classifyBranch features rnd).2.2.2 + 1))
        confidence :=
          roundConfidence (min (lit 9 10) (fadd (classifyBranch features rnd).2.1 (lit 1 10)))
        score :=
          (mathRound (min (ofNat 95) (fadd (classifyBranch features rnd).2.2.1 (ofNat 10))) : ℕ) } := by
  unfold simulateRecognition
  simp only [if_pos hov]


set_option maxRecDepth 100000 in
theorem sample_draws_valid :
    isDouble 0 ∧ isDouble (one - one / 128) ∧ one - one / 128 < one ∧
      lit 8 10 < one - one / 128 := by
  decide

theorem validDraws_zeroDraws : ValidDraws zeroDraws :=
  fun _ => ⟨one_pos, sample_draws_valid.1⟩

theorem validDraws_highDraws : ValidDraws highDraws := by
  intro i
  unfold highDraws
  split_ifs
  · exact ⟨one_pos, sample_draws_valid.1⟩
  · exact ⟨sample_draws_valid.2.2.1, sample_draws_valid.2.1⟩

theorem validDraws_allHighDraws : ValidDraws allHighDraws :=
  fun _ => ⟨sample_draws_valid.2.2.1, sample_draws_valid.2.1⟩

/-- Ranges of `Math.round(confidence * 100)` and `Math.round(score)` for the
output of each branch. -/
theorem branch_ranges (features : FeatureSet) (rnd : ℕ → ℕ) (hr : ValidDraws rnd) :
    ((15 < features.coverage ∧ 10 < features.complexity) ∧
        (70 ≤ mathRound (fmul (classifyBranch features rnd).2.1 (ofNat 100)) ∧
          mathRound (fmul (classifyBranch features rnd).2.1 (ofNat 100)) ≤ 90) ∧
        (70 ≤ mathRound (classifyBranch features rnd).2.2.1 ∧
          mathRound (classifyBranch features rnd).2.2.1 ≤ 95)) ∨
      ((¬ (15 < features.coverage ∧ 10 < features.complexity) ∧ 8 < features.coverage) ∧
        (60 ≤ mathRound (fmul (classifyBranch features rnd).2.1 (ofNat 100)) ∧
          mathRound (fmul (classifyBranch features rnd).2.1 (ofNat 100)) ≤ 80) ∧
        (60 ≤ mathRound (classifyBranch features rnd).2.2.1 ∧
          mathRound (classifyBranch features rnd).2.2.1 ≤ 80)) ∨
      ((features.coverage ≤ 8 ∧ 3 < features.coverage) ∧
        (40 ≤ mathRound (fmul (classifyBranch features rnd).2.1 (ofNat 100)) ∧
          mathRound (fmul (classifyBranch features rnd).2.1 (ofNat 100)) ≤ 70) ∧
        (40 ≤ mathRound (classifyBranch features rnd).2.2.1 ∧
          mathRound (classifyBranch features rnd).2.2.1 ≤ 70)) ∨
      (features.coverage ≤ 3 ∧
        (20 ≤ mathRound (fmul (classifyBranch features rnd).2.1 (ofNat 100)) ∧
          mathRound (fmul (classifyBranch features rnd).2.1 (ofNat 100)) ≤ 50) ∧
        (20 ≤ mathRound (classifyBranch features rnd).2.2.1 ∧
          mathRound (classifyBranch features rnd).2.2.1 ≤ 50)) := by
  obtain ⟨e1, e2, e3, e4⟩ := branch_endpoints
  rcases classifyBranch_cases features rnd with ⟨hc, hb⟩ | ⟨hc, hb⟩ | ⟨hc, hb⟩ | ⟨hc, hb⟩
  · left
    rw [hb]
    exact ⟨hc, percent_between (le_of_lt (hr 1).1) e1.1 e1.2.1,
      score_between (le_of_lt (hr 2).1) e1.2.2.1 e1.2.2.2⟩
  · right; left
    rw [hb]
    exact ⟨hc, percent_between (le_of_lt (hr 1).1) e2.1 e2.2.1,
      score_between (le_of_lt (hr 2).1) e2.2.2.1 e2.2.2.2⟩
  · right; right; left
    rw [hb]
    exact ⟨hc, percent_between (le_of_lt (hr 0).1) e3.1 e3.2.1,
      score_between (le_of_lt (hr 1).1) e3.2.2.1 e3.2.2.2⟩
  · right; right; right
    rw [hb]
    exact ⟨hc, percent_between (le_of_lt (hr 0).1) e4.1 e4.2.1,
      score_between (le_of_lt (hr 1).1) e4.2.2.1 e4.2.2.2⟩

/-- C3: when the override does not fire, the label is decided by the first
matching branch: coverage > 15 and complexity > 10 gives one of the four
well-formed fish names; otherwise coverage > 8 gives one of the three outline
names; otherwise coverage > 3 gives the sketch label; otherwise the label is
the needs-more-detail label. -/
theorem c3_label_by_first_matching_branch (features : FeatureSet) (rnd : ℕ → ℕ)
    (hr : ValidDraws rnd)
    (hno : ¬ lit 8 10 < rnd (classifyBranch features rnd).2.2.2) :
    (15 < features.coverage ∧ 10 < features.complexity →
        (simulateRecognition features rnd).type ∈
          [some "金鱼", some "鲤鱼", some "热带鱼", some "神仙鱼"]) ∧
      (¬ (15 < features.coverage ∧ 10 < features.complexity) ∧ 8 < features.coverage →
        (simulateRecognition features rnd).type ∈
          [some "小鱼", some "简单鱼类", some "鱼的轮廓"]) ∧
      (features.coverage ≤ 8 ∧ 3 < features.coverage →
        (simulateRecognition features rnd).type = some "鱼的草图") ∧
      (features.coverage ≤ 3 →
        (simulateRecognition features rnd).type = some "需要更多细节") := by
  rw [simulateRecognition_of_not_override hno]
  simp only
  rcases classifyBranch_cases features rnd with ⟨hc, hb⟩ | ⟨hc, hb⟩ | ⟨hc, hb⟩ | ⟨hc, hb⟩
  · rw [hb]
    refine ⟨fun _ => pick_four _ _ _ _ (hr 0).2 (hr 0).1, fun h => absurd hc h.1,
      fun h => ?_, fun h => ?_⟩ <;> omega
  · rw [hb]
    refine ⟨fun h => absurd h hc.1, fun _ => pick_three _ _ _ (hr 0).2 (hr 0).1,
      fun h => ?_, fun h => ?_⟩ <;> omega
  · rw [hb]
    refine ⟨fun h => ?_, fun h => ?_, fun _ => rfl, fun h => ?_⟩ <;> omega
  · rw [hb]
    refine ⟨fun h => ?_, fun h => ?_, fun h => ?_, fun _ => rfl⟩ <;> omega

theorem c3_label_by_first_matching_branch_witness :
    ValidDraws zeroDraws ∧
      ¬ lit 8 10 < zeroDraws (classifyBranch sampleFeatures zeroDraws).2.2.2 ∧
      ((15 < sampleFeatures.coverage ∧ 10 < sampleFeatures.complexity →
          (simulateRecognition sampleFeatures zeroDraws).type ∈
            [some "金鱼", some "鲤鱼", some "热带鱼", some "神仙鱼"]) ∧
        (¬ (15 < sampleFeatures.coverage ∧ 10 < sampleFeatures.complexity) ∧
            8 < sampleFeatures.coverage →
          (simulateRecognition sampleFeatures zeroDraws).type ∈
            [some "小鱼", some "简单鱼类", some "鱼的轮廓"]) ∧
        (sampleFeatures.coverage ≤ 8 ∧ 3 < sampleFeatures.coverage →
          (simulateRecognition sampleFeatures zeroDraws).type = some "鱼的草图") ∧
        (sampleFeatures.coverage ≤ 3 →
          (simulateRecognition sampleFeatures zeroDraws).type = some "需要更多细节")) :=
  ⟨validDraws_zeroDraws, Nat.not_lt_zero _,
    c3_label_by_first_matching_branch sampleFeatures zeroDraws validDraws_zeroDraws
      (Nat.not_lt_zero _)⟩


set_option maxRecDepth 100000 in
/-- C4 (counterexample): with coverage 20, complexity 20, the draws for label,
confidence and score all `127/128` and the override draw 0, the override does
not fire and the first branch returns score 95 and confidence 0.9: the
upper ends of the ranges are attained, so the returned values are not in the
half-open ranges `[70, 95)` and `[0.70, 0.90)`. -/
theorem c4_half_open_ranges_fail :
    ValidDraws highDraws ∧
      ¬ lit 8 10 < highDraws (classifyBranch sampleFeatures highDraws).2.2.2 ∧
      (15 < sampleFeatures.coverage ∧ 10 < sampleFeatures.complexity) ∧
      (simulateRecognition sampleFeatures highDraws).score = 95 ∧
      ¬ (simulateRecognition sampleFeatures highDraws).score < 95 ∧
      (simulateRecognition sampleFeatures highDraws).confidence = lit 9 10 ∧
      ¬ (simulateRecognition sampleFeatures highDraws).confidence < lit 9 10 :=
  ⟨validDraws_highDraws, by decide, by decide, by decide, by decide, by decide, by decide⟩

/-- C4 (amended): when the override does not fire, the returned confidence is
the binary64 value nearest to `k / 100` for an integer `k`, and `k` and the
returned score lie in the closed range of the branch that fired: `k` in
`[70, 90]` and score in `[70, 95]` when coverage > 15 and complexity > 10; `k`
in `[60, 80]` and score in `[60, 80]` when otherwise coverage > 8; `k` in
`[40, 70]` and score in `[40, 70]` when otherwise coverage > 3; `k` in
`[20, 50]` and score in `[20, 50]` otherwise. -/
theorem c4_closed_ranges (features : FeatureSet) (rnd : ℕ → ℕ) (hr : ValidDraws rnd)
    (hno : ¬ lit 8 10 < rnd (classifyBranch features rnd).2.2.2) :
    (15 < features.coverage ∧ 10 < features.complexity →
        (∃ k : ℕ, 70 ≤ k ∧ k ≤ 90 ∧
          (simulateRecognition features rnd).confidence = lit k 100) ∧
        70 ≤ (simulateRecognition features rnd).score ∧
        (simulateRecognition features rnd).score ≤ 95) ∧
      (¬ (15 < features.coverage ∧ 10 < features.complexity) ∧ 8 < features.coverage →
        (∃ k : ℕ, 60 ≤ k ∧ k ≤ 80 ∧
          (simulateRecognition features rnd).confidence = lit k 100) ∧
        60 ≤ (simulateRecognition features rnd).score ∧
        (simulateRecognition features rnd).score ≤ 80) ∧
      (features.coverage ≤ 8 ∧ 3 < features.coverage →
        (∃ k : ℕ, 40 ≤ k ∧ k ≤ 70 ∧
          (simulateRecognition features rnd).confidence = lit k 100) ∧
        40 ≤ (simulateRecognition features rnd).score ∧
        (simulateRecognition features rnd).score ≤ 70) ∧
      (features.coverage ≤ 3 →
        (∃ k : ℕ, 20 ≤ k ∧ k ≤ 50 ∧
          (simulateRecognition features rnd).confidence = lit k 100) ∧
        20 ≤ (simulateRecognition features rnd).score ∧
        (simulateRecognition features rnd).score ≤ 50) := by
  rw [simulateRecognition_of_not_override hno]
  simp only
  have key : ∀ lo hi slo shi : ℕ, hi ≤ 100 →
      (lo ≤ mathRound (fmul (classifyBranch features rnd).2.1 (ofNat 100)) ∧
        mathRound (fmul (classifyBranch features rnd).2.1 (ofNat 100)) ≤ hi) →
      (slo ≤ mathRound (classifyBranch features rnd).2.2.1 ∧
        mathRound (classifyBranch features rnd).2.2.1 ≤ shi) →
      (∃ k : ℕ, lo ≤ k ∧ k ≤ hi ∧
          roundConfidence (classifyBranch features rnd).2.1 = lit k 100) ∧
        (slo : ℤ) ≤ (mathRound (classifyBranch features rnd).2.2.1 : ℕ) ∧
        ((mathRound (classifyBranch features rnd).2.2.1 : ℕ) : ℤ) ≤ (shi : ℤ) := by
    intro lo hi slo shi hhi hk hs
    refine ⟨⟨_, hk.1, hk.2, roundConfidence_eq_lit ?_⟩, by exact_mod_cast hs.1,
      by exact_mod_cast hs.2⟩
    exact lt_of_le_of_lt (le_trans hk.2 hhi) (by norm_num)
  rcases branch_ranges features rnd hr with ⟨hc, hk, hs⟩ | ⟨hc, hk, hs⟩ | ⟨hc, hk, hs⟩ |
    ⟨hc, hk, hs⟩
  · refine ⟨fun _ => key 70 90 70 95 (by norm_num) hk hs, fun h => absurd hc h.1,
      fun h => ?_, fun h => ?_⟩ <;> omega
  · refine ⟨fun h => absurd h hc.1, fun _ => key 60 80 60 80 (by norm_num) hk hs,
      fun h => ?_, fun h => ?_⟩ <;> omega
  · refine ⟨fun h => ?_, fun h => ?_, fun _ => key 40 70 40 70 (by norm_num) hk hs,
      fun h => ?_⟩ <;> omega
  · refine ⟨fun h => ?_, fun h => ?_, fun h => ?_,
      fun _ => key 20 50 20 50 (by norm_num) hk hs⟩ <;> omega


theorem highDraws_no_override :
    ¬ lit 8 10 < highDraws (classifyBranch sampleFeatures highDraws).2.2.2 := by
  have h : highDraws (classifyBranch sampleFeatures highDraws).2.2.2 = 0 := by decide
  rw [h]
  exact Nat.not_lt_zero _

theorem c4_closed_ranges_witness :
    ValidDraws highDraws ∧
      ¬ lit 8 10 < highDraws (classifyBranch sampleFeatures highDraws).2.2.2 ∧
      ((15 < sampleFeatures.coverage ∧ 10 < sampleFeatures.complexity →
          (∃ k : ℕ, 70 ≤ k ∧ k ≤ 90 ∧
            (simulateRecognition sampleFeatures highDraws).confidence = lit k 100) ∧
          70 ≤ (simulateRecognition sampleFeatures highDraws).score ∧
          (simulateRecognition sampleFeatures highDraws).score ≤ 95) ∧
        (¬ (15 < sampleFeatures.coverage ∧ 10 < sampleFeatures.complexity) ∧
            8 < sampleFeatures.coverage →
          (∃ k : ℕ, 60 ≤ k ∧ k ≤ 80 ∧
            (simulateRecognition sampleFeatures highDraws).confidence = lit k 100) ∧
          60 ≤ (simulateRecognition sampleFeatures highDraws).score ∧
          (simulateRecognition sampleFeatures highDraws).score ≤ 80) ∧
        (sampleFeatures.coverage ≤ 8 ∧ 3 < sampleFeatures.coverage →
          (∃ k : ℕ, 40 ≤ k ∧ k ≤ 70 ∧
            (simulateRecognition sampleFeatures highDraws).confidence = lit k 100) ∧
          40 ≤ (simulateRecognition sampleFeatures highDraws).score ∧
          (simulateRecognition sampleFeatures highDraws).score ≤ 70) ∧
        (sampleFeatures.coverage ≤ 3 →
          (∃ k : ℕ, 20 ≤ k ∧ k ≤ 50 ∧
            (simulateRecognition sampleFeatures highDraws).confidence = lit k 100) ∧
          20 ≤ (simulateRecognition sampleFeatures highDraws).score ∧
          (simulateRecognition sampleFeatures highDraws).score ≤ 50)) :=
  ⟨validDraws_highDraws, highDraws_no_override,
    c4_closed_ranges sampleFeatures highDraws validDraws_highDraws highDraws_no_override⟩

set_option maxRecDepth 100000 in
theorem clamp_endpoints :
    roundConfidence (lit 9 10) ≤ one ∧ mathRound (ofNat 95) = 95 ∧ lit 100 100 = one := by
  decide

/-- C5: for every feature set and all draws in `[0, 1)`, whether or not the
override fires, the returned confidence lies in `[0, 1]` and the returned score
is an integer in `[0, 95]`. -/
theorem c5_confidence_and_score_bounds (features : FeatureSet) (rnd : ℕ → ℕ)
    (hr : ValidDraws rnd) :
    0 ≤ (simulateRecognition features rnd).confidence ∧
      (simulateRecognition features rnd).confidence ≤ one ∧
      0 ≤ (simulateRecognition features rnd).score ∧
      (simulateRecognition features rnd).score ≤ 95 := by
  obtain ⟨e1, e2, e3⟩ := clamp_endpoints
  by_cases hov : lit 8 10 < rnd (classifyBranch features rnd).2.2.2
  · rw [simulateRecognition_of_override hov]
    simp only
    refine ⟨Nat.zero_le _, ?_, Int.natCast_nonneg _, ?_⟩
    · exact le_trans (roundConfidence_mono (min_le_left _ _)) e1
    · have h := mathRound_mono
        (min_le_left (ofNat 95) (fadd (classifyBranch features rnd).2.2.1 (ofNat 10)))
      rw [e2] at h
      exact_mod_cast h
  · rw [simulateRecognition_of_not_override hov]
    simp only
    have hk : mathRound (fmul (classifyBranch features rnd).2.1 (ofNat 100)) ≤ 100 ∧
        mathRound (classifyBranch features rnd).2.2.1 ≤ 95 := by
      rcases branch_ranges features rnd hr with ⟨_, hk, hs⟩ | ⟨_, hk, hs⟩ | ⟨_, hk, hs⟩ |
        ⟨_, hk, hs⟩ <;> omega
    refine ⟨Nat.zero_le _, ?_, Int.natCast_nonneg _, by exact_mod_cast hk.2⟩
    rw [roundConfidence_eq_lit (lt_of_le_of_lt hk.1 (by norm_num)), ← e3]
    exact lit_mono (by norm_num) hk.1

theorem c5_confidence_and_score_bounds_witness :
    ValidDraws allHighDraws ∧
      (0 ≤ (simulateRecognition sampleFeatures allHighDraws).confidence ∧
        (simulateRecognition sampleFeatures allHighDraws).confidence ≤ one ∧
        0 ≤ (simulateRecognition sampleFeatures allHighDraws).score ∧
        (simulateRecognition sampleFeatures allHighDraws).score ≤ 95) :=
  ⟨validDraws_allHighDraws,
    c5_confidence_and_score_bounds sampleFeatures allHighDraws validDraws_allHighDraws⟩

/-- C6: the override is decided by the one draw `u` that follows the draws of
the branch (the third or fourth draw), by the same rule whichever branch fired:
it fires exactly when `u > 0.8`.  When it fires the label is one of the four
special species and the confidence `c` and score `s` of the branch become
`min(0.9, c + 0.1)` and `min(95, s + 10)` before the final rounding; when it
does not fire the label, confidence and score are those of the branch. -/
theorem c6_override (features : FeatureSet) (rnd : ℕ → ℕ) (hr : ValidDraws rnd) :
    ((classifyBranch features rnd).2.2.2 = 2 ∨ (classifyBranch features rnd).2.2.2 = 3) ∧
      (lit 8 10 < rnd (classifyBranch features rnd).2.2.2 →
        (simulateRecognition features rnd).type ∈
            [some "鲨鱼", some "小丑鱼", some "蝴蝶鱼", some "斗鱼"] ∧
          (simulateRecognition features rnd).type =
            pick specialTypes (rnd ((classifyBranch features rnd).2.2.2 + 1)) ∧
          (simulateRecognition features rnd).confidence =
            roundConfidence
              (min (lit 9 10) (fadd (classifyBranch features rnd).2.1 (lit 1 10))) ∧
          (simulateRecognition features rnd).score =
            (mathRound
              (min (ofNat 95) (fadd (classifyBranch features rnd).2.2.1 (ofNat 10))) : ℕ)) ∧
      (¬ lit 8 10 < rnd (classifyBranch features rnd).2.2.2 →
        (simulateRecognition features rnd).type = (classifyBranch features rnd).1 ∧
          (simulateRecognition features rnd).confidence =
            roundConfidence (classifyBranch features rnd).2.1 ∧
          (simulateRecognition features rnd).score =
            (mathRound (classifyBranch features rnd).2.2.1 : ℕ)) := by
  refine ⟨?_, fun hov => ?_, fun hno => ?_⟩
  · rcases classifyBranch_cases features rnd with ⟨_, hb⟩ | ⟨_, hb⟩ | ⟨_, hb⟩ | ⟨_, hb⟩ <;>
      rw [hb] <;> simp
  · rw [simulateRecognition_of_override hov]
    exact ⟨pick_four _ _ _ _ (hr _).2 (hr _).1, rfl, rfl, rfl⟩
  · rw [simulateRecognition_of_not_override hno]
    exact ⟨rfl, rfl, rfl⟩

theorem c6_override_witness :
    ValidDraws allHighDraws ∧
      (((classifyBranch sampleFeatures allHighDraws).2.2.2 = 2 ∨
          (classifyBranch sampleFeatures allHighDraws).2.2.2 = 3) ∧
        (lit 8 10 < allHighDraws (classifyBranch sampleFeatures allHighDraws).2.2.2 →
          (simulateRecognition sampleFeatures allHighDraws).type ∈
              [some "鲨鱼", some "小丑鱼", some "蝴蝶鱼", some "斗鱼"] ∧
            (simulateRecognition sampleFeatures allHighDraws).type =
              pick specialTypes
                (allHighDraws ((classifyBranch sampleFeatures allHighDraws).2.2.2 + 1)) ∧
            (simulateRecognition sampleFeatures allHighDraws).confidence =
              roundConfidence
                (min (lit 9 10)
                  (fadd (classifyBranch sampleFeatures allHighDraws).2.1 (lit 1 10))) ∧
            (simulateRecognition sampleFeatures allHighDraws).score =
              (mathRound
                (min (ofNat 95)
                  (fadd (classifyBranch sampleFeatures allHighDraws).2.2.1 (ofNat 10))) : ℕ)) ∧
        (¬ lit 8 10 < allHighDraws (classifyBranch sampleFeatures allHighDraws).2.2.2 →
          (simulateRecognition sampleFeatures allHighDraws).type =
              (classifyBranch sampleFeatures allHighDraws).1 ∧
            (simulateRecognition sampleFeatures allHighDraws).confidence =
              roundConfidence (classifyBranch sampleFeatures allHighDraws).2.1 ∧
            (simulateRecognition sampleFeatures allHighDraws).score =
              (mathRound (classifyBranch sampleFeatures allHighDraws).2.2.1 : ℕ))) :=
  ⟨validDraws_allHighDraws, c6_override sampleFeatures allHighDraws validDraws_allHighDraws⟩

/-! ### `generateSuggestions` -/

/-- C7: for every result with an integer score, `generateSuggestions` returns a
list of exactly 3 strings, chosen by exactly one of three brackets: the beginner
tips when `score < 40`, the intermediate tips when `40 <= score < 70` and the
praise list when `score >= 70`; the brackets are exhaustive and mutually
exclusive and the three lists are different. -/
theorem c7_generateSuggestions_brackets (result : Recognition) :
    (generateSuggestions result).length = 3 ∧
      (result.score < 40 → generateSuggestions result = beginnerTips) ∧
      (40 ≤ result.score ∧ result.score < 70 →
        generateSuggestions result = intermediateTips) ∧
      (70 ≤ result.score → generateSuggestions result = praiseTips) ∧
      (result.score < 40 ∨ (40 ≤ result.score ∧ result.score < 70) ∨ 70 ≤ result.score) ∧
      ¬ (result.score < 40 ∧ 40 ≤ result.score) ∧
      ¬ (result.score < 70 ∧ 70 ≤ result.score) ∧
      beginnerTips ≠ intermediateTips ∧ intermediateTips ≠ praiseTips ∧
      beginnerTips ≠ praiseTips := by
  refine ⟨?_, ?_, ?_, ?_, ?_, ?_, ?_, by decide, by decide, by decide⟩
  · unfold generateSuggestions
    split_ifs <;> rfl
  · intro h
    simp [generateSuggestions, h]
  · rintro ⟨h1, h2⟩
    have h3 : ¬ result.score < 40 := not_lt.mpr h1
    simp [generateSuggestions, h2, h3]
  · intro h
    have h1 : ¬ result.score < 40 := by omega
    have h2 : ¬ result.score < 70 := by omega
    simp [generateSuggestions, h1, h2]
  · omega
  · omega
  · omega

/-! ### `FirebaseManager` -/

/-- C8: `saveDrawing` fails with the store-not-ready error and leaves the store
unchanged when the store is not initialised; on an initialised store it appends
exactly one record, carrying the given `imageData` and `analysisResult`, at
the end of the record list, leaves all earlier records unchanged and in order, and
returns the id of the appended record. -/
theorem c8_saveDrawing_appends (s : FirebaseManager) (env : Env) (d : DrawingData) :
    (s.isInitialized = false →
        (saveDrawing s env d).1 = Except.error StoreError.notReady ∧
          (saveDrawing s env d).2 = s) ∧
      (s.isInitialized = true →
        ∃ r : DrawingRecord,
          (saveDrawing s env d).2.mockStorage = s.mockStorage ++ [r] ∧
            r.imageData = d.imageData ∧ r.analysisResult = d.analysisResult ∧
            (saveDrawing s env d).1 = Except.ok r.id ∧
            (saveDrawing s env d).2.isInitialized = true) := by
  constructor
  · intro h
    simp [saveDrawing, h]
  · intro h
    refine ⟨DrawingRecord.mk (generateId env.now env.suffix) env.timestamp d.imageData
      d.analysisResult env.userAgent (env.innerWidth, env.innerHeight),
      ?_, rfl, rfl, ?_, ?_⟩ <;> simp [saveDrawing, h]

theorem slice0_of_nonneg {α : Type} (arr : List α) {limit : ℤ} (h : 0 ≤ limit) :
    slice0 arr limit = arr.take limit.toNat := by
  simp [slice0, h]

/-- C9: on an initialised store holding `n` records, `getDrawingHistory(limit)`
with `limit >= 0` returns `min(limit, n)` records of the store, ordered by
timestamp newest first, and no record left out is newer than a returned one;
an omitted `limit` is 10. -/
theorem c9_getDrawingHistory_newest (s : FirebaseManager) (limit : ℤ)
    (hinit : s.isInitialized = true) (hlimit : 0 ≤ limit) :
    ∃ l rest : List DrawingRecord,
      (getDrawingHistory s (some limit)).1 = Except.ok l ∧
        l.length = min limit.toNat s.mockStorage.length ∧
        l.Sorted newestFirst ∧
        (l ++ rest).Perm s.mockStorage ∧
        (∀ a ∈ l, ∀ b ∈ rest, b.timestamp ≤ a.timestamp) ∧
        getDrawingHistory s none = getDrawingHistory s (some 10) := by
  have hsorted : (s.mockStorage.insertionSort newestFirst).Sorted newestFirst :=
    List.sorted_insertionSort newestFirst s.mockStorage
  have hperm : (s.mockStorage.insertionSort newestFirst).Perm s.mockStorage :=
    List.perm_insertionSort newestFirst s.mockStorage
  refine ⟨(s.mockStorage.insertionSort newestFirst).take limit.toNat,
    (s.mockStorage.insertionSort newestFirst).drop limit.toNat, ?_, ?_, ?_, ?_, ?_, rfl⟩
  · simp [getDrawingHistory, hinit, slice0_of_nonneg _ hlimit]
  · rw [List.length_take, List.length_insertionSort]
  · exact hsorted.sublist (List.take_sublist _ _)
  · rw [List.take_append_drop]
    exact hperm
  · intro a ha b hb
    have h := hsorted
    rw [← List.take_append_drop limit.toNat (s.mockStorage.insertionSort newestFirst)] at h
    exact (List.pairwise_append.1 h).2.2 a ha b hb

theorem c9_getDrawingHistory_newest_witness :
    sampleStore.isInitialized = true ∧ (0 : ℤ) ≤ 2 ∧
      ∃ l rest : List DrawingRecord,
        (getDrawingHistory sampleStore (some 2)).1 = Except.ok l ∧
          l.length = min (2 : ℤ).toNat sampleStore.mockStorage.length ∧
          l.Sorted newestFirst ∧
          (l ++ rest).Perm sampleStore.mockStorage ∧
          (∀ a ∈ l, ∀ b ∈ rest, b.timestamp ≤ a.timestamp) ∧
          getDrawingHistory sampleStore none = getDrawingHistory sampleStore (some 10) :=
  ⟨rfl, by decide, c9_getDrawingHistory_newest sampleStore 2 rfl (by decide)⟩

/-- C10 (evaluation at the failing input): on a store holding an older record
followed by a newer one, `getDrawingHistory` leaves the record list reversed:
the in-place sort reorders `mockStorage`. -/
theorem c10_getDrawingHistory_reorders_store :
    twoRecordStore.mockStorage = [sampleRecord "a" 1000, sampleRecord "b" 2000] ∧
      (getDrawingHistory twoRecordStore (some 10)).2.mockStorage =
        [sampleRecord "b" 2000, sampleRecord "a" 1000] ∧
      (getDrawingHistory twoRecordStore (some 10)).2.mockStorage ≠
        twoRecordStore.mockStorage := by
  decide

/-! ### `deleteDrawing`, `exportData` and `importData` -/

theorem findIndex_eq_none {α : Type} (p : α → Bool) (l : List α) :
    findIndex p l = none ↔ ∀ a ∈ l, p a = false := by
  induction l with
  | nil => simp [findIndex]
  | cons a l ih =>
    by_cases h : p a <;> simp [findIndex, h, ih]

theorem findIndex_eq_some {α : Type} (p : α → Bool) (l : List α) (i : ℕ)
    (h : findIndex p l = some i) :
    ∃ pre a post, l = pre ++ a :: post ∧ p a = true ∧ (∀ x ∈ pre, p x = false) ∧
      l.eraseIdx i = pre ++ post := by
  induction l generalizing i with
  | nil => simp [findIndex] at h
  | cons a l ih =>
    by_cases hp : p a
    · simp only [findIndex, hp, if_true, Option.some.injEq] at h
      subst h
      exact ⟨[], a, l, rfl, hp, by simp, rfl⟩
    · simp only [findIndex, hp, Bool.false_eq_true, if_false, Option.map_eq_some'] at h
      obtain ⟨j, hj, rfl⟩ := h
      obtain ⟨pre, b, post, hl, hb, hpre, he⟩ := ih j hj
      refine ⟨a :: pre, b, post, by rw [hl]; rfl, hb, ?_, ?_⟩
      · intro x hx
        rcases List.mem_cons.1 hx with rfl | hx
        · simpa using hp
        · exact hpre x hx
      · simp [List.eraseIdx, he]

/-- C11: on an initialised store, `deleteDrawing(id)` removes exactly the first
record whose id equals `id`, keeps every other record in its relative order and
returns true when such a record exists; when no record has that id it fails
with the not-found error and leaves the store unchanged. -/
theorem c11_deleteDrawing_first_match (s : FirebaseManager) (id : String)
    (hinit : s.isInitialized = true) :
    ((∃ r ∈ s.mockStorage, r.id = id) →
        (deleteDrawing s id).1 = Except.ok true ∧
          ∃ pre r post, s.mockStorage = pre ++ r :: post ∧ r.id = id ∧
            (∀ x ∈ pre, x.id ≠ id) ∧
            (deleteDrawing s id).2.mockStorage = pre ++ post ∧
            (deleteDrawing s id).2.isInitialized = true) ∧
      ((∀ r ∈ s.mockStorage, r.id ≠ id) →
        (deleteDrawing s id).1 = Except.error StoreError.notFound ∧
          (deleteDrawing s id).2 = s) := by
  constructor
  · rintro ⟨r, hr, hid⟩
    cases hfi : findIndex (fun record => record.id == id) s.mockStorage with
    | none =>
      have := (findIndex_eq_none _ _).1 hfi r hr
      simp [hid] at this
    | some i =>
      obtain ⟨pre, a, post, hl, ha, hpre, he⟩ := findIndex_eq_some _ _ i hfi
      refine ⟨by simp [deleteDrawing, hinit, hfi], pre, a, post, hl, by simpa using ha, ?_,
        by simp [deleteDrawing, hinit, hfi, he], by simp [deleteDrawing, hinit, hfi]⟩
      intro x hx
      simpa using hpre x hx
  · intro hnone
    have hfi : findIndex (fun record => record.id == id) s.mockStorage = none := by
      rw [findIndex_eq_none]
      intro a ha
      simpa using hnone a ha
    simp [deleteDrawing, hinit, hfi]

theorem c11_deleteDrawing_first_match_witness :
    sampleStore.isInitialized = true ∧
      (((∃ r ∈ sampleStore.mockStorage, r.id = "b") →
          (deleteDrawing sampleStore "b").1 = Except.ok true ∧
            ∃ pre r post, sampleStore.mockStorage = pre ++ r :: post ∧ r.id = "b" ∧
              (∀ x ∈ pre, x.id ≠ "b") ∧
              (deleteDrawing sampleStore "b").2.mockStorage = pre ++ post ∧
              (deleteDrawing sampleStore "b").2.isInitialized = true) ∧
        ((∀ r ∈ sampleStore.mockStorage, r.id ≠ "b") →
          (deleteDrawing sampleStore "b").1 = Except.error StoreError.notFound ∧
            (deleteDrawing sampleStore "b").2 = sampleStore)) :=
  ⟨rfl, c11_deleteDrawing_first_match sampleStore "b" rfl⟩

/-- C12: for every store and every blob whose `data` field is a list,
`importData` sets the record list to the existing records followed by the
records of the blob in order, with no deduplication; importing `exportData()` of
a store with `n` records into an empty store reproduces exactly those records,
and importing it into the exporting store itself leaves `2n` records. -/
theorem c12_importData_appends (s t : FirebaseManager) (blob : ExportedData)
    (records : List DrawingRecord) (date : ℤ) (hdata : blob.data = some records) :
    (importData s (some blob)).1 = Except.ok true ∧
      (importData s (some blob)).2.mockStorage = s.mockStorage ++ records ∧
      (importData s (some blob)).2.isInitialized = s.isInitialized ∧
      (t.mockStorage = [] →
        (importData t (some (exportData s date))).2.mockStorage = s.mockStorage ∧
          (importData t (some (exportData s date))).2.mockStorage.length =
            s.mockStorage.length) ∧
      (importData s (some (exportData s date))).2.mockStorage =
        s.mockStorage ++ s.mockStorage ∧
      (importData s (some (exportData s date))).2.mockStorage.length =
        2 * s.mockStorage.length := by
  refine ⟨by simp [importData, hdata], by simp [importData, hdata],
    by simp [importData, hdata], ?_, by simp [importData, exportData], ?_⟩
  · intro ht
    simp [importData, exportData, ht]
  · simp [importData, exportData]
    omega

theorem c12_importData_appends_witness :
    newestFirstBlob.data = some [sampleRecord "b" 2000, sampleRecord "a" 1000] ∧
      ((importData sampleStore (some newestFirstBlob)).1 = Except.ok true ∧
        (importData sampleStore (some newestFirstBlob)).2.mockStorage =
          sampleStore.mockStorage ++ [sampleRecord "b" 2000, sampleRecord "a" 1000] ∧
        (importData sampleStore (some newestFirstBlob)).2.isInitialized =
          sampleStore.isInitialized ∧
        (emptyStore.mockStorage = [] →
          (importData emptyStore (some (exportData sampleStore 7))).2.mockStorage =
              sampleStore.mockStorage ∧
            (importData emptyStore (some (exportData sampleStore 7))).2.mockStorage.length =
              sampleStore.mockStorage.length) ∧
        (importData sampleStore (some (exportData sampleStore 7))).2.mockStorage =
          sampleStore.mockStorage ++ sampleStore.mockStorage ∧
        (importData sampleStore (some (exportData sampleStore 7))).2.mockStorage.length =
          2 * sampleStore.mockStorage.length) :=
  ⟨rfl, c12_importData_appends sampleStore emptyStore newestFirstBlob
    [sampleRecord "b" 2000, sampleRecord "a" 1000] 7 rfl⟩

/-! ### `getStatistics`: the average score -/

theorem roundRat_nat_mul_one {a : ℕ} (ha : a < 2 ^ 53) : roundRat (a * one) 1 = a * one := by
  have := roundRat_exact Nat.one_pos (isDouble_nat_mul_one ha)
  simpa using this

theorem roundInt_int_mul_one {k : ℤ} (hk : k.natAbs < 2 ^ 53) :
    roundInt (k * (one : ℤ)) = k * (one : ℤ) := by
  have hO : (0 : ℤ) < (one : ℤ) := by exact_mod_cast one_pos
  have hab : (k * (one : ℤ)).natAbs = k.natAbs * one := by
    rw [Int.natAbs_mul, Int.natAbs_ofNat]
  unfold roundInt
  rw [hab, roundRat_nat_mul_one hk]
  by_cases hneg : k * (one : ℤ) < 0
  · rw [if_pos hneg]
    have hk0 : k < 0 := by
      by_contra hc
      push_neg at hc
      have := mul_nonneg hc (le_of_lt hO)
      omega
    push_cast
    rw [abs_of_neg hk0]
    ring
  · rw [if_neg hneg]
    have hk0 : 0 ≤ k := by
      by_contra hc
      push_neg at hc
      exact hneg (mul_neg_of_neg_of_pos hc hO)
    push_cast
    rw [abs_of_nonneg hk0]

/-- The running sum of integer scores is exact while it stays below `2^53`. -/
theorem foldl_faddInt_exact (scores : List ℤ) : ∀ a : ℤ,
    a.natAbs + (scores.map Int.natAbs).sum < 2 ^ 53 →
    scores.foldl (fun x b => faddInt x (ofInt b)) (a * (one : ℤ)) =
      (a + scores.sum) * (one : ℤ) := by
  induction scores with
  | nil => intro a _; simp
  | cons b l ih =>
    intro a h
    simp only [List.map_cons, List.sum_cons] at h
    have hb : b.natAbs < 2 ^ 53 := by omega
    have hab : (a + b).natAbs < 2 ^ 53 := by
      have := Int.natAbs_add_le a b
      omega
    have hstep : faddInt (a * (one : ℤ)) (ofInt b) = (a + b) * (one : ℤ) := by
      unfold faddInt ofInt
      rw [roundInt_int_mul_one hb, ← add_mul, roundInt_int_mul_one hab]
    simp only [List.foldl_cons, hstep, List.sum_cons]
    rw [ih (a + b) (by have := Int.natAbs_add_le a b; omega)]
    ring_nf

/-- One rounding keeps the quotient `e / n` within half of `1 / n` of its exact
value. -/
theorem div_close {e n : ℕ} (he : e ≤ 2 ^ 44) (hn1 : 1 ≤ n) (hn2 : n ≤ 2 ^ 44) :
    2 * (roundRat (e * one) n * n) < 2 * (e * one) + one ∧
      2 * (e * one) < 2 * (roundRat (e * one) n * n) + one := by
  have hO : 0 < one := one_pos
  rcases Nat.eq_zero_or_pos e with h0 | hpos
  · subst h0
    simp only [Nat.zero_mul, Nat.mul_zero, roundRat_zero, Nat.zero_add]
    omega
  · have hone : 2 ^ 150 ≤ one := two_pow_le_one (by norm_num)
    have hn : 2 ^ 52 * n ≤ e * one := by
      calc 2 ^ 52 * n ≤ 2 ^ 52 * 2 ^ 44 := Nat.mul_le_mul_left _ hn2
        _ ≤ 2 ^ 150 := by norm_num
        _ ≤ one := hone
        _ ≤ e * one := Nat.le_mul_of_pos_left _ hpos
    obtain ⟨e1, e2⟩ := roundRat_err (show 0 < n by omega) hn
    generalize roundRat (e * one) n = X at *
    have hU : (2:ℕ) ^ 53 = (2 ^ 53 - 1) + 1 := by norm_num
    have hbound : 2 * e < 2 ^ 53 - 1 := by
      have : (2:ℕ) ^ 44 * 2 < 2 ^ 53 - 1 := by norm_num
      omega
    generalize (2:ℕ) ^ 53 - 1 = V at *
    generalize (2:ℕ) ^ 53 = U at *
    generalize one = O at *
    subst hU
    have hb' : O * (2 * e) < O * V := Nat.mul_lt_mul_of_pos_left hbound hO
    constructor
    · by_contra hc
      push_neg at hc
      have hc' := Nat.mul_le_mul_right (V + 1) hc
      nlinarith
    · by_contra hc
      push_neg at hc
      have hc' := Nat.mul_le_mul_right (V + 1) hc
      nlinarith

/-- A quotient that is an odd multiple of one half is a double, so it is not
rounded. -/
theorem div_tie_exact {e n k : ℕ} (he : e ≤ 2 ^ 44) (hn1 : 1 ≤ n)
    (hk : 2 * e = (2 * k + 1) * n) :
    roundRat (e * one) n = (2 * k + 1) * 2 ^ 1073 := by
  have h1 : one = 2 * 2 ^ 1073 := by rw [one_eq, ← pow_succ']
  have hk53 : 2 * k + 1 < 2 ^ 53 := by
    have h2 : (2 * k + 1) * 1 ≤ (2 * k + 1) * n := Nat.mul_le_mul_left _ hn1
    have h3 : (2:ℕ) ^ 44 * 2 < 2 ^ 53 := by norm_num
    omega
  have hc : isDouble ((2 * k + 1) * 2 ^ 1073) := isDouble_mul_two_pow hk53
  generalize (2:ℕ) ^ 1073 = P at *
  have e3 : e * one = (2 * k + 1) * P * n := by
    rw [h1]
    calc e * (2 * P) = (2 * e) * P := by ring
      _ = (2 * k + 1) * n * P := by rw [hk]
      _ = (2 * k + 1) * P * n := by ring
  rw [e3, roundRat_exact (show 0 < n by omega) hc]

/-- `Math.round` of a signed double that is within half of `1 / D` of `N / D`,
when `N / D` is not half-way between two integers. -/
theorem mathRoundInt_near {X N : ℤ} {D : ℕ} (hD : 0 < D)
    (h1 : 2 * (X * D) < 2 * (N * (one : ℤ)) + (one : ℤ))
    (h2 : 2 * (N * (one : ℤ)) < 2 * (X * D) + (one : ℤ))
    (hnt : (2 * N + D) % (2 * (D : ℤ)) ≠ 0) :
    mathRoundInt X = (2 * N + D) / (2 * (D : ℤ)) := by
  have hO : (0 : ℤ) < (one : ℤ) := by exact_mod_cast one_pos
  have hDz : (0 : ℤ) < (D : ℤ) := by exact_mod_cast hD
  unfold mathRoundInt
  generalize (one : ℤ) = O at *
  have a1 := Int.emod_add_ediv (2 * X + O) (2 * O)
  have a2 := Int.emod_nonneg (2 * X + O) (show (2 * O) ≠ 0 by omega)
  have a3 := Int.emod_lt_of_pos (2 * X + O) (show 0 < 2 * O by omega)
  have b1 := Int.emod_add_ediv (2 * N + D) (2 * (D : ℤ))
  have b2 := Int.emod_nonneg (2 * N + D) (show (2 * (D : ℤ)) ≠ 0 by omega)
  have b3 := Int.emod_lt_of_pos (2 * N + D) (show 0 < 2 * (D : ℤ) by omega)
  generalize (2 * X + O) / (2 * O) = M at *
  generalize (2 * X + O) % (2 * O) = ρ at *
  generalize (2 * N + D) / (2 * (D : ℤ)) = q at *
  generalize (2 * N + D) % (2 * (D : ℤ)) = r at *
  generalize (D : ℤ) = d at *
  have hr1 : 1 ≤ r := by omega
  have hOD : 0 < O * d := mul_pos hO hDz
  have key : 2 * (O * d) * (M - q) = (2 * (X * d) - 2 * (N * O)) - ρ * d + r * O := by
    have e1 : (2 * X + O) * d = (ρ + 2 * O * M) * d := by rw [a1]
    have e2 : (2 * N + d) * O = (r + 2 * d * q) * O := by rw [b1]
    linear_combination e2 - e1
  have hρd : ρ * d + d ≤ 2 * O * d := by nlinarith
  have hrO : r * O + O ≤ 2 * d * O := by nlinarith
  have hlt : 2 * (O * d) * (M - q) < 2 * (O * d) * 1 := by nlinarith
  have hgt : 2 * (O * d) * (-1) < 2 * (O * d) * (M - q) := by nlinarith
  have t1 : M - q < 1 := lt_of_mul_lt_mul_left hlt (by omega)
  have t2 : -1 < M - q := lt_of_mul_lt_mul_left hgt (by omega)
  omega

/-- `Math.round(sum / n)` is the round-half-up of the exact quotient of the
integers `S` and `n`. -/
theorem average_round (S : ℤ) (n : ℕ) (hS : S.natAbs ≤ 2 ^ 44) (hn1 : 1 ≤ n)
    (hn2 : n ≤ 2 ^ 44) :
    mathRoundInt (fdivInt (S * (one : ℤ)) (ofNat n)) = (2 * S + n) / (2 * (n : ℤ)) := by
  have hO : (0 : ℤ) < (one : ℤ) := by exact_mod_cast one_pos
  have hn53 : n < 2 ^ 53 := lt_of_le_of_lt hn2 (by norm_num)
  have hnz : (0 : ℤ) < (n : ℤ) := by exact_mod_cast hn1
  have hab : (S * (one : ℤ)).natAbs = S.natAbs * one := by
    rw [Int.natAbs_mul, Int.natAbs_ofNat]
  have hX : roundRat (S.natAbs * one * one) (ofNat n) = roundRat (S.natAbs * one) n := by
    rw [ofNat_eq hn53]
    exact roundRat_scale (by omega) one_pos
  have hsign : S * (one : ℤ) < 0 ↔ S < 0 := by
    constructor
    · intro h
      by_contra hc
      push_neg at hc
      have := mul_nonneg hc (le_of_lt hO)
      omega
    · intro h
      exact mul_neg_of_neg_of_pos h hO
  have hfd : fdivInt (S * (one : ℤ)) (ofNat n) =
      if S < 0 then -((roundRat (S.natAbs * one) n : ℕ) : ℤ)
      else ((roundRat (S.natAbs * one) n : ℕ) : ℤ) := by
    unfold fdivInt
    rw [hab, hX]
    by_cases h : S < 0
    · rw [if_pos (hsign.2 h), if_pos h]
    · rw [if_neg (fun h' => h (hsign.1 h')), if_neg h]
  rw [hfd]
  obtain ⟨c1, c2⟩ := div_close hS hn1 hn2
  have c1z : 2 * (((roundRat (S.natAbs * one) n : ℕ) : ℤ) * (n : ℤ)) <
      2 * ((S.natAbs : ℤ) * (one : ℤ)) + (one : ℤ) := by exact_mod_cast c1
  have c2z : 2 * ((S.natAbs : ℤ) * (one : ℤ)) <
      2 * (((roundRat (S.natAbs * one) n : ℕ) : ℤ) * (n : ℤ)) + (one : ℤ) := by
    exact_mod_cast c2
  by_cases htie : (2 * S.natAbs + n) % (2 * n) = 0
  · -- the quotient is an odd multiple of one half
    obtain ⟨k, hk⟩ : ∃ k, 2 * S.natAbs = (2 * k + 1) * n := by
      have hdm := Nat.div_add_mod (2 * S.natAbs + n) (2 * n)
      rw [htie, Nat.add_zero] at hdm
      have hR : 1 ≤ (2 * S.natAbs + n) / (2 * n) := by
        by_contra hc
        have h0 : (2 * S.natAbs + n) / (2 * n) = 0 := Nat.lt_one_iff.mp (not_le.mp hc)
        rw [h0] at hdm
        omega
      obtain ⟨k, hk⟩ : ∃ k, (2 * S.natAbs + n) / (2 * n) = k + 1 :=
        ⟨(2 * S.natAbs + n) / (2 * n) - 1, by omega⟩
      rw [hk] at hdm
      exact ⟨k, by nlinarith⟩
    rw [div_tie_exact hS hn1 hk]
    obtain ⟨P, hP, h1, hPe⟩ : ∃ P : ℕ, 0 < P ∧ one = 2 * P ∧ 2 ^ 1073 = P :=
      ⟨2 ^ 1073, by positivity, by rw [one_eq, ← pow_succ'], rfl⟩
    have hkz : 2 * (S.natAbs : ℤ) = (2 * (k : ℤ) + 1) * (n : ℤ) := by exact_mod_cast hk
    have hPz : (0 : ℤ) < (P : ℤ) := by exact_mod_cast hP
    have hP4 : 2 * (2 * (P : ℤ)) ≠ 0 := ne_of_gt (by positivity)
    have hn2z : 2 * (n : ℤ) ≠ 0 := ne_of_gt (by positivity)
    unfold mathRoundInt
    rw [hPe, h1]
    push_cast
    by_cases hneg : S < 0
    · rw [if_pos hneg]
      have hSe : (S.natAbs : ℤ) = -S := by
        rw [← Int.abs_eq_natAbs, abs_of_neg hneg]
      have e1 : 2 * -((2 * (k : ℤ) + 1) * (P : ℤ)) + 2 * (P : ℤ) =
          (-(k : ℤ)) * (2 * (2 * (P : ℤ))) := by ring
      have e2 : 2 * S + (n : ℤ) = (-(k : ℤ)) * (2 * (n : ℤ)) := by
        rw [hSe] at hkz
        linear_combination -hkz
      rw [e1, e2, Int.mul_ediv_cancel _ hP4, Int.mul_ediv_cancel _ hn2z]
    · rw [if_neg hneg]
      have hSe : (S.natAbs : ℤ) = S := by
        rw [← Int.abs_eq_natAbs, abs_of_nonneg (not_lt.mp hneg)]
      have e1 : 2 * ((2 * (k : ℤ) + 1) * (P : ℤ)) + 2 * (P : ℤ) =
          ((k : ℤ) + 1) * (2 * (2 * (P : ℤ))) := by ring
      have e2 : 2 * S + (n : ℤ) = ((k : ℤ) + 1) * (2 * (n : ℤ)) := by
        rw [hSe] at hkz
        linear_combination hkz
      rw [e1, e2, Int.mul_ediv_cancel _ hP4, Int.mul_ediv_cancel _ hn2z]
  · have hndvd : ¬ (2 * n) ∣ (2 * S.natAbs + n) := fun h => htie (Nat.mod_eq_zero_of_dvd h)
    have hndz : ¬ (2 * (n : ℤ)) ∣ (2 * (S.natAbs : ℤ) + (n : ℤ)) := by
      intro h
      apply hndvd
      exact_mod_cast h
    by_cases hneg : S < 0
    · rw [if_pos hneg]
      have hSe : (S.natAbs : ℤ) = -S := by
        rw [← Int.abs_eq_natAbs, abs_of_neg hneg]
      apply mathRoundInt_near (by omega : 0 < n)
      · rw [hSe] at c2z; linarith
      · rw [hSe] at c1z; linarith
      · intro h
        apply hndz
        have hd := Int.dvd_of_emod_eq_zero h
        rw [hSe]
        have : 2 * -S + (n : ℤ) = -(2 * S + (n : ℤ)) + 2 * (n : ℤ) := by ring
        rw [this]
        exact dvd_add (Dvd.dvd.neg_right hd) (dvd_refl _)
    · rw [if_neg hneg]
      have hSe : (S.natAbs : ℤ) = S := by
        rw [← Int.abs_eq_natAbs, abs_of_nonneg (not_lt.mp hneg)]
      apply mathRoundInt_near (by omega : 0 < n)
      · rw [hSe] at c1z; linarith
      · rw [hSe] at c2z; linarith
      · intro h
        apply hndz
        rw [hSe]
        exact Int.dvd_of_emod_eq_zero h

theorem natAbs_sum_le (l : List ℤ) : l.sum.natAbs ≤ (l.map Int.natAbs).sum := by
  induction l with
  | nil => simp
  | cons a l ih =>
    simp only [List.sum_cons, List.map_cons]
    have := Int.natAbs_add_le a l.sum
    omega

theorem length_le_sum_natAbs (l : List ℤ) (h : ∀ v ∈ l, v ≠ 0) :
    l.length ≤ (l.map Int.natAbs).sum := by
  induction l with
  | nil => simp
  | cons a l ih =>
    simp only [List.length_cons, List.map_cons, List.sum_cons]
    have ha : 1 ≤ a.natAbs := Int.natAbs_pos.2 (h a (by simp))
    have := ih (fun v hv => h v (by simp [hv]))
    omega

theorem truthyScores_ne_zero (records : List DrawingRecord) :
    ∀ v ∈ truthyScores records, v ≠ 0 := by
  intro v hv
  unfold truthyScores at hv
  rw [List.mem_filterMap] at hv
  obtain ⟨r, _, hr⟩ := hv
  cases har : r.analysisResult with
  | none => simp [har] at hr
  | some a =>
    cases hs : a.score with
    | none => simp [har, hs] at hr
    | some w =>
      simp only [har, hs] at hr
      by_cases hw : w = 0
      · simp [hw] at hr
      · simp only [hw, if_false, Option.some.injEq] at hr
        rw [← hr]; exact hw

/-- On a store without a zero score the truthy scores are the non-null ones. -/
theorem truthyScores_eq_nonNullScores (records : List DrawingRecord)
    (h : ∀ r ∈ records, ∀ a, r.analysisResult = some a → a.score ≠ some 0) :
    truthyScores records = nonNullScores records := by
  induction records with
  | nil => rfl
  | cons r l ih =>
    have ih' := ih (fun x hx => h x (by simp [hx]))
    unfold truthyScores nonNullScores at ih' ⊢
    rw [List.filterMap_cons, List.filterMap_cons, ih']
    cases har : r.analysisResult with
    | none => simp
    | some a =>
      cases hs : a.score with
      | none => simp [hs]
      | some w =>
        have hw : w ≠ 0 := by
          intro h0
          exact h r (by simp) a har (by rw [hs, h0])
        simp [hs, hw]

/-- The average computed in binary64 is the round-half-up of the exact mean. -/
theorem averageOf_eq_roundedMean (scores : List ℤ)
    (hsum : (scores.map Int.natAbs).sum ≤ 2 ^ 44) (hlen : scores.length ≤ 2 ^ 44) :
    averageOf scores = roundedMean scores := by
  unfold averageOf roundedMean
  by_cases he : scores = []
  · subst he
    simp
  · have hpos : 0 < scores.length := List.length_pos.2 he
    rw [if_pos hpos, if_neg he]
    have hexact := foldl_faddInt_exact scores 0
      (by simp only [Int.natAbs_zero, Nat.zero_add]
          exact lt_of_le_of_lt hsum (by norm_num))
    simp only [zero_mul, zero_add] at hexact
    rw [hexact]
    exact average_round scores.sum scores.length (le_trans (natAbs_sum_le scores) hsum)
      hpos hlen

set_option maxRecDepth 100000 in
/-- C13 (evaluation at the failing input): on a store holding one record of
score 0 and one of score 10, both non-null, the rounded mean of the scores is
5, but `getStatistics` returns `averageScore` 10: the filter keeps only truthy
scores and drops the score 0. -/
theorem c13_zero_score_left_out :
    getStatistics zeroScoreStore =
        Except.ok { totalDrawings := 2, averageScore := 10, lastDrawing := some 2000 } ∧
      nonNullScores zeroScoreStore.mockStorage = [0, 10] ∧
      roundedMean (nonNullScores zeroScoreStore.mockStorage) = 5 :=
  ⟨by rfl, by decide, by decide⟩

/-- What `getStatistics` computes: the `averageScore` is the arithmetic mean,
rounded half up, of the scores that are neither null nor zero, and 0 when there
is none; on a store without a zero score this is the rounded mean of the
non-null scores. -/
theorem averageScore_mean_of_truthy_scores (s : FirebaseManager)
    (hinit : s.isInitialized = true)
    (hsize : ((truthyScores s.mockStorage).map Int.natAbs).sum ≤ 2 ^ 44) :
    ∃ st : Statistics, getStatistics s = Except.ok st ∧
      st.averageScore = roundedMean (truthyScores s.mockStorage) ∧
      (truthyScores s.mockStorage = [] → st.averageScore = 0) ∧
      ((∀ r ∈ s.mockStorage, ∀ a, r.analysisResult = some a → a.score ≠ some 0) →
        st.averageScore = roundedMean (nonNullScores s.mockStorage)) := by
  have hst : getStatistics s = Except.ok
      { totalDrawings := s.mockStorage.length
        averageScore := averageOf (truthyScores s.mockStorage)
        lastDrawing := s.mockStorage.getLast?.map fun record => record.timestamp } := by
    simp only [getStatistics, hinit, Bool.not_true, Bool.false_eq_true, if_false]
  have hlen : (truthyScores s.mockStorage).length ≤ 2 ^ 44 :=
    le_trans (length_le_sum_natAbs _ (truthyScores_ne_zero _)) hsize
  have havg := averageOf_eq_roundedMean _ hsize hlen
  refine ⟨_, hst, havg, ?_, ?_⟩
  · intro he
    show averageOf (truthyScores s.mockStorage) = 0
    rw [he]
    rfl
  · intro hz
    show averageOf (truthyScores s.mockStorage) = roundedMean (nonNullScores s.mockStorage)
    rw [havg, truthyScores_eq_nonNullScores _ hz]

/-! ### `getStatistics`: the last drawing -/

theorem savedInOrder_spec {s : FirebaseManager} (h : SavedInOrder s) :
    s.isInitialized = true ∧
      s.mockStorage.Pairwise (fun a b => a.timestamp ≤ b.timestamp) := by
  induction h with
  | empty => exact ⟨rfl, List.Pairwise.nil⟩
  | save s env d _ hclock ih =>
    obtain ⟨hinit, hp⟩ := ih
    refine ⟨by simp [saveDrawing, hinit], ?_⟩
    simp only [saveDrawing, hinit, Bool.not_true, Bool.false_eq_true, if_false]
    rw [List.pairwise_append]
    refine ⟨hp, List.pairwise_singleton _ _, ?_⟩
    intro a ha b hb
    rw [List.mem_singleton] at hb
    subst hb
    exact hclock a ha
  | delete s id _ ih =>
    obtain ⟨hinit, hp⟩ := ih
    unfold deleteDrawing
    simp only [hinit, Bool.not_true, Bool.false_eq_true, if_false]
    cases findIndex (fun record => record.id == id) s.mockStorage with
    | none => exact ⟨hinit, hp⟩
    | some i =>
      dsimp only
      exact ⟨rfl, hp.sublist (List.eraseIdx_sublist _ _)⟩

theorem getLast?_ge_of_pairwise {l : List DrawingRecord}
    (hp : l.Pairwise (fun a b => a.timestamp ≤ b.timestamp)) (hne : l ≠ []) :
    ∃ last ∈ l, l.getLast? = some last ∧ ∀ r ∈ l, r.timestamp ≤ last.timestamp := by
  obtain ⟨init, last, rfl⟩ : ∃ init last, l = init ++ [last] :=
    ⟨l.dropLast, l.getLast hne, (List.dropLast_append_getLast hne).symm⟩
  refine ⟨last, by simp, by simp, ?_⟩
  intro r hr
  rcases List.mem_append.1 hr with h | h
  · exact (List.pairwise_append.1 hp).2.2 r h last (by simp)
  · rw [List.mem_singleton] at h
    rw [h]

/-- C14 (counterexample): importing a blob whose records are listed newest
first into the empty initialised store gives a store whose statistics report
the instant 1000 as `lastDrawing`, although the store holds a record of the
later instant 2000. -/
theorem c14_lastDrawing_after_import_not_greatest :
    getStatistics (importData emptyStore (some newestFirstBlob)).2 =
        Except.ok { totalDrawings := 2, averageScore := 0, lastDrawing := some 1000 } ∧
      sampleRecord "b" 2000 ∈ (importData emptyStore (some newestFirstBlob)).2.mockStorage ∧
      ¬ (sampleRecord "b" 2000).timestamp ≤ 1000 :=
  ⟨rfl, by decide, by decide⟩

/-- C14 (amended): for every store reached from the empty initialised store by
`saveDrawing` calls whose clock never runs backwards and by `deleteDrawing`
calls, the `lastDrawing` returned by `getStatistics` is the timestamp of the
last record of the list, which is the greatest timestamp in the store, and it
is null when the store is empty. -/
theorem c14_lastDrawing_greatest_when_saved_in_order (s : FirebaseManager)
    (h : SavedInOrder s) :
    ∃ st : Statistics, getStatistics s = Except.ok st ∧
      (s.mockStorage = [] → st.lastDrawing = none) ∧
      (s.mockStorage ≠ [] →
        ∃ last ∈ s.mockStorage, s.mockStorage.getLast? = some last ∧
          st.lastDrawing = some last.timestamp ∧
          ∀ r ∈ s.mockStorage, r.timestamp ≤ last.timestamp) := by
  obtain ⟨hinit, hp⟩ := savedInOrder_spec h
  have hst : getStatistics s = Except.ok
      { totalDrawings := s.mockStorage.length
        averageScore := averageOf (truthyScores s.mockStorage)
        lastDrawing := s.mockStorage.getLast?.map fun record => record.timestamp } := by
    simp only [getStatistics, hinit, Bool.not_true, Bool.false_eq_true, if_false]
  refine ⟨_, hst, ?_, ?_⟩
  · intro he
    simp [he]
  · intro hne
    obtain ⟨last, hmem, hlast, hge⟩ := getLast?_ge_of_pairwise hp hne
    exact ⟨last, hmem, hlast, by simp [hlast], hge⟩

theorem savedInOrder_savedTwiceStore : SavedInOrder savedTwiceStore :=
  SavedInOrder.save (saveDrawing emptyStore sampleEnv sampleDrawing).2 laterEnv sampleDrawing
    (SavedInOrder.save emptyStore sampleEnv sampleDrawing SavedInOrder.empty
      (by simp [emptyStore]))
    (by decide)

theorem savedInOrder_savedDeletedSavedStore : SavedInOrder savedDeletedSavedStore :=
  SavedInOrder.save (deleteDrawing savedTwiceStore "drawing_1000_abc").2 latestEnv
    sampleDrawing
    (SavedInOrder.delete savedTwiceStore "drawing_1000_abc" savedInOrder_savedTwiceStore)
    (by decide)

theorem c14_lastDrawing_greatest_when_saved_in_order_witness :
    (SavedInOrder savedTwiceStore ∧
        (savedTwiceStore.mockStorage.map fun r => r.timestamp) = [1000, 2000] ∧
        ∃ st : Statistics, getStatistics savedTwiceStore = Except.ok st ∧
          (savedTwiceStore.mockStorage = [] → st.lastDrawing = none) ∧
          (savedTwiceStore.mockStorage ≠ [] →
            ∃ last ∈ savedTwiceStore.mockStorage,
              savedTwiceStore.mockStorage.getLast? = some last ∧
              st.lastDrawing = some last.timestamp ∧
              ∀ r ∈ savedTwiceStore.mockStorage, r.timestamp ≤ last.timestamp)) ∧
      (SavedInOrder savedDeletedSavedStore ∧
        (savedDeletedSavedStore.mockStorage.map fun r => r.timestamp) = [2000, 3000] ∧
        ∃ st : Statistics, getStatistics savedDeletedSavedStore = Except.ok st ∧
          (savedDeletedSavedStore.mockStorage = [] → st.lastDrawing = none) ∧
          (savedDeletedSavedStore.mockStorage ≠ [] →
            ∃ last ∈ savedDeletedSavedStore.mockStorage,
              savedDeletedSavedStore.mockStorage.getLast? = some last ∧
              st.lastDrawing = some last.timestamp ∧
              ∀ r ∈ savedDeletedSavedStore.mockStorage, r.timestamp ≤ last.timestamp)) :=
  ⟨⟨savedInOrder_savedTwiceStore, by decide,
      c14_lastDrawing_greatest_when_saved_in_order savedTwiceStore
        savedInOrder_savedTwiceStore⟩,
    ⟨savedInOrder_savedDeletedSavedStore, by decide,
      c14_lastDrawing_greatest_when_saved_in_order savedDeletedSavedStore
        savedInOrder_savedDeletedSavedStore⟩⟩

/-- The statistics of the two sample stores saved in order: the last drawing is
the newest record, also after a deletion and a further save. -/
theorem getStatistics_saved_in_order_samples :
    getStatistics savedTwiceStore =
        Except.ok { totalDrawings := 2, averageScore := 0, lastDrawing := some 2000 } ∧
      getStatistics savedDeletedSavedStore =
        Except.ok { totalDrawings := 2, averageScore := 0, lastDrawing := some 3000 } :=
  ⟨rfl, rfl⟩

/-! ### `generateId` -/

/-- A decimal digit character encodes its digit and is not the separator. -/
theorem digitChar_spec (k : ℕ) (hk : k < 10) :
    (Nat.digitChar k).toNat - 48 = k ∧ Nat.digitChar k ≠ '_' := by
  interval_cases k <;> decide

theorem toDigitsCore_spec (fuel : ℕ) : ∀ (n : ℕ) (ds : List Char), n < fuel →
    ∃ xs : List Char, Nat.toDigitsCore 10 fuel n ds = xs ++ ds ∧
      xs.foldl (fun acc c => 10 * acc + (c.toNat - 48)) 0 = n ∧ ∀ c ∈ xs, c ≠ '_' := by
  induction fuel with
  | zero => intro n ds h; omega
  | succ f ih =>
    intro n ds hn
    obtain ⟨hv, hc⟩ := digitChar_spec (n % 10) (Nat.mod_lt _ (by norm_num))
    by_cases h0 : n / 10 = 0
    · refine ⟨[Nat.digitChar (n % 10)], by simp [Nat.toDigitsCore, h0], ?_, ?_⟩
      · simp only [List.foldl_cons, List.foldl_nil, hv]; omega
      · intro c hcm
        rw [List.mem_singleton] at hcm
        rw [hcm]; exact hc
    · obtain ⟨xs, hx, hval, hall⟩ := ih (n / 10) (Nat.digitChar (n % 10) :: ds) (by omega)
      refine ⟨xs ++ [Nat.digitChar (n % 10)], by simp [Nat.toDigitsCore, h0, hx], ?_, ?_⟩
      · rw [List.foldl_append, hval]
        simp only [List.foldl_cons, List.foldl_nil, hv]; omega
      · intro c hcm
        rcases List.mem_append.1 hcm with h | h
        · exact hall c h
        · rw [List.mem_singleton] at h
          rw [h]; exact hc

theorem toString_nat_spec (n : ℕ) :
    (toString n).data.foldl (fun acc c => 10 * acc + (c.toNat - 48)) 0 = n ∧
      ∀ c ∈ (toString n).data, c ≠ '_' := by
  obtain ⟨xs, hx, hval, hall⟩ := toDigitsCore_spec (n + 1) n [] (by omega)
  have e : (toString n).data = xs := by
    show (Nat.repr n).data = xs
    simp [Nat.repr, Nat.toDigits, hx, List.asString]
  rw [e]
  exact ⟨hval, hall⟩

theorem append_separator_inj : ∀ (d₁ d₂ t₁ t₂ : List Char),
    (∀ c ∈ d₁, c ≠ '_') → (∀ c ∈ d₂, c ≠ '_') →
    d₁ ++ '_' :: t₁ = d₂ ++ '_' :: t₂ → d₁ = d₂ ∧ t₁ = t₂ := by
  intro d₁
  induction d₁ with
  | nil =>
    intro d₂ t₁ t₂ _ h₂ h
    cases d₂ with
    | nil => simpa using h
    | cons c d =>
      simp only [List.nil_append, List.cons_append, List.cons.injEq] at h
      exact absurd h.1.symm (h₂ c (by simp))
  | cons a d ih =>
    intro d₂ t₁ t₂ h₁ h₂ h
    cases d₂ with
    | nil =>
      simp only [List.nil_append, List.cons_append, List.cons.injEq] at h
      exact absurd h.1 (h₁ a (by simp))
    | cons c d' =>
      simp only [List.cons_append, List.cons.injEq] at h
      obtain ⟨hd, ht⟩ := ih d' t₁ t₂ (fun x hx => h₁ x (by simp [hx]))
        (fun x hx => h₂ x (by simp [hx])) h.2
      exact ⟨by rw [h.1, hd], ht⟩

/-- The id determines the clock reading and the suffix it was built from. -/
theorem generateId_inj (n₁ n₂ : ℕ) (s₁ s₂ : String) :
    generateId n₁ s₁ = generateId n₂ s₂ ↔ n₁ = n₂ ∧ s₁ = s₂ := by
  constructor
  · intro h
    have hd := congrArg String.data h
    simp only [generateId, String.data_append, List.append_assoc] at hd
    have hd2 := List.append_cancel_left hd
    simp only [List.singleton_append] at hd2
    obtain ⟨e1, e2⟩ := append_separator_inj _ _ _ _ (toString_nat_spec n₁).2
      (toString_nat_spec n₂).2 hd2
    refine ⟨?_, String.ext e2⟩
    rw [← (toString_nat_spec n₁).1, ← (toString_nat_spec n₂).1, e1]
  · rintro ⟨rfl, rfl⟩
    rfl

/-- C15 (counterexample): two successive successful `saveDrawing` calls that
read the same clock value and the same random draw return the same id. -/
theorem c15_same_clock_and_draw_collide :
    (saveDrawing emptyStore sampleEnv sampleDrawing).1 = Except.ok "drawing_1000_abc" ∧
      (saveDrawing (saveDrawing emptyStore sampleEnv sampleDrawing).2 sampleEnv
        sampleDrawing).1 = Except.ok "drawing_1000_abc" ∧
      ((saveDrawing (saveDrawing emptyStore sampleEnv sampleDrawing).2 sampleEnv
        sampleDrawing).2.mockStorage.map fun r => r.id) =
        ["drawing_1000_abc", "drawing_1000_abc"] :=
  ⟨rfl, rfl, by decide⟩

/-- C15 (amended): every successful `saveDrawing` returns the id
`drawing_<clock>_<suffix>` built from the clock reading and the random suffix
that `generateId` used, and two successful calls return distinct ids exactly
when their clock readings differ or their random suffixes differ. -/
theorem c15_ids_distinct_iff_readings_differ (s₁ s₂ : FirebaseManager) (env₁ env₂ : Env)
    (d₁ d₂ : DrawingData) (h₁ : s₁.isInitialized = true) (h₂ : s₂.isInitialized = true) :
    (saveDrawing s₁ env₁ d₁).1 = Except.ok (generateId env₁.now env₁.suffix) ∧
      (saveDrawing s₂ env₂ d₂).1 = Except.ok (generateId env₂.now env₂.suffix) ∧
      (generateId env₁.now env₁.suffix ≠ generateId env₂.now env₂.suffix ↔
        env₁.now ≠ env₂.now ∨ env₁.suffix ≠ env₂.suffix) := by
  refine ⟨by simp [saveDrawing, h₁], by simp [saveDrawing, h₂], ?_⟩
  rw [Ne, generateId_inj]
  tauto

theorem c15_ids_distinct_iff_readings_differ_witness :
    emptyStore.isInitialized = true ∧ sampleStore.isInitialized = true ∧
      ((saveDrawing emptyStore sampleEnv sampleDrawing).1 =
          Except.ok (generateId sampleEnv.now sampleEnv.suffix) ∧
        (saveDrawing sampleStore sampleEnv sampleDrawing).1 =
          Except.ok (generateId sampleEnv.now sampleEnv.suffix) ∧
        (generateId sampleEnv.now sampleEnv.suffix ≠ generateId sampleEnv.now sampleEnv.suffix ↔
          sampleEnv.now ≠ sampleEnv.now ∨ sampleEnv.suffix ≠ sampleEnv.suffix)) :=
  ⟨rfl, rfl,
    c15_ids_distinct_iff_readings_differ emptyStore sampleStore sampleEnv sampleEnv
      sampleDrawing sampleDrawing rfl rfl⟩

/-! ### Uniform and blank rasters -/

theorem mathRound_zero : mathRound 0 = 0 := by
  unfold mathRound
  apply Nat.div_eq_of_lt
  have := one_pos
  omega

/-- A zero count gives the percentage 0, whatever the denominator. -/
theorem percent_zero (b : ℕ) : mathRound (fmul (fdiv (ofNat 0) (ofNat b)) (ofNat 100)) = 0 := by
  have h0 : ofNat 0 = 0 := by
    unfold ofNat
    rw [Nat.zero_mul]
    exact roundRat_zero 1
  have h1 : fdiv 0 (ofNat b) = 0 := by
    unfold fdiv
    rw [Nat.zero_mul]
    exact roundRat_zero _
  have h2 : fmul 0 (ofNat 100) = 0 := by
    unfold fmul
    rw [Nat.zero_mul]
    exact roundRat_zero _
  rw [h0, h1, h2, mathRound_zero]

theorem edgePixelCount_eq_zero_of_uniform {img : ImageData} {a : ℕ}
    (hu : ∀ x y, x < img.width → y < img.height → alphaAt img x y = a) :
    edgePixelCount img = 0 := by
  unfold edgePixelCount
  rw [Finset.card_eq_zero, Finset.filter_eq_empty_iff]
  rintro ⟨x, y⟩ _ ⟨_, hx0, hx1, hy0, hy1, hs⟩
  simp only at hx0 hx1 hy0 hy1 hs
  have e0 := hu x y (by omega) (by omega)
  have e1 := hu (x - 1) y (by omega) (by omega)
  have e2 := hu (x + 1) y hx1 (by omega)
  have e3 := hu x (y - 1) (by omega) (by omega)
  have e4 := hu x (y + 1) (by omega) hy1
  rw [e0, e1, e2, e3, e4] at hs
  simp [sharp] at hs

theorem coveredCount_eq_zero_of_blank {img : ImageData}
    (hz : ∀ x y, x < img.width → y < img.height → alphaAt img x y = 0) :
    coveredCount img = 0 := by
  unfold coveredCount
  rw [Finset.card_eq_zero, Finset.filter_eq_empty_iff]
  rintro ⟨x, y⟩ hp hc
  simp only [pixels, Finset.mem_product, Finset.mem_range] at hp
  have := hz x y hp.1 hp.2
  unfold isCovered at hc
  simp only at hc
  omega

/-- The features of a raster without covered pixels. -/
theorem blank_raster_features (img : ImageData) (hw : WellFormed img)
    (hz : ∀ x y, x < img.width → y < img.height → alphaAt img x y = 0) :
    ∃ fs : FeatureSet, extractBasicFeatures img = some fs ∧ fs.complexity = 0 ∧
      fs.edgeCount = 0 ∧ fs.coverage = 0 := by
  have he := edgePixelCount_eq_zero_of_uniform hz
  have hc := coveredCount_eq_zero_of_blank hz
  refine ⟨_, extractBasicFeatures_eq hw, ?_, he, ?_⟩
  · show mathRound (fmul (fdiv (ofNat (edgePixelCount img)) _) (ofNat 100)) = 0
    rw [he]
    exact percent_zero _
  · show mathRound (fmul (fdiv (ofNat (coveredCount img)) _) (ofNat 100)) = 0
    rw [hc]
    exact percent_zero _

/-- C16: for every raster buffer whose pixels all have the same alpha value,
`extractBasicFeatures` returns complexity 0, and when that value is 0, so that
no pixel is covered, it also returns coverage 0. -/
theorem c16_uniform_raster (img : ImageData) (a : ℕ) (hw : WellFormed img)
    (hu : ∀ x y, x < img.width → y < img.height → alphaAt img x y = a) :
    ∃ fs : FeatureSet, extractBasicFeatures img = some fs ∧ fs.complexity = 0 ∧
      fs.edgeCount = 0 ∧ (a = 0 → fs.coverage = 0 ∧ fs.pixelCount = 0) := by
  have he := edgePixelCount_eq_zero_of_uniform hu
  refine ⟨_, extractBasicFeatures_eq hw, ?_, he, ?_⟩
  · show mathRound (fmul (fdiv (ofNat (edgePixelCount img)) _) (ofNat 100)) = 0
    rw [he]
    exact percent_zero _
  · intro ha
    subst ha
    have hc := coveredCount_eq_zero_of_blank hu
    refine ⟨?_, hc⟩
    show mathRound (fmul (fdiv (ofNat (coveredCount img)) _) (ofNat 100)) = 0
    rw [hc]
    exact percent_zero _

theorem opaqueImage_uniform :
    ∀ x y, x < opaqueImage.width → y < opaqueImage.height → alphaAt opaqueImage x y = 255 := by
  intro x y hx hy
  have hx' : x < 3 := hx
  have hy' : y < 3 := hy
  interval_cases x <;> interval_cases y <;> rfl

theorem c16_uniform_raster_witness :
    WellFormed opaqueImage ∧
      (∀ x y, x < opaqueImage.width → y < opaqueImage.height →
        alphaAt opaqueImage x y = 255) ∧
      ∃ fs : FeatureSet, extractBasicFeatures opaqueImage = some fs ∧ fs.complexity = 0 ∧
        fs.edgeCount = 0 ∧ ((255 : ℕ) = 0 → fs.coverage = 0 ∧ fs.pixelCount = 0) :=
  ⟨by decide, opaqueImage_uniform,
    c16_uniform_raster opaqueImage 255 (by decide) opaqueImage_uniform⟩

set_option maxRecDepth 100000 in
theorem override_endpoints :
    mathRound (min (ofNat 95) (fadd (fadd (ofNat 20) (fmul 0 (ofNat 30))) (ofNat 10))) = 30 ∧
      mathRound (min (ofNat 95) (fadd (fadd (ofNat 20) (fmul one (ofNat 30))) (ofNat 10))) = 60 := by
  decide

theorem validDraws_highDrawsThird : ValidDraws highDrawsThird := by
  intro i
  unfold highDrawsThird
  split_ifs
  · exact ⟨one_pos, sample_draws_valid.1⟩
  · exact ⟨sample_draws_valid.2.2.1, sample_draws_valid.2.1⟩

set_option maxRecDepth 100000 in
/-- C17 (counterexample): the 2 x 2 raster of transparent pixels has coverage 0
and complexity 0; with every draw `127/128` the override fires and the result
has a special-species label and score 60, and with the override draw 0 the
label is the needs-more-detail label but the score is 50, outside `[20, 50)`. -/
theorem c17_blank_raster_label_and_score_fail :
    WellFormed blankImage ∧ blankImage.data = List.replicate 16 0 ∧
      ValidDraws allHighDraws ∧ ValidDraws highDrawsThird ∧
      extractBasicFeatures blankImage = some blankFeatures ∧
      blankFeatures.coverage = 0 ∧ blankFeatures.complexity = 0 ∧
      (simulateRecognition blankFeatures allHighDraws).type = some "斗鱼" ∧
      (simulateRecognition blankFeatures allHighDraws).score = 60 ∧
      (simulateRecognition blankFeatures highDrawsThird).type = some "需要更多细节" ∧
      (simulateRecognition blankFeatures highDrawsThird).score = 50 :=
  ⟨by decide, rfl, validDraws_allHighDraws, validDraws_highDrawsThird, by decide, rfl, rfl,
    by decide, by decide, by decide, by decide⟩

/-- C17 (amended): for every raster buffer in which all pixels have alpha 0 and
all draws in `[0, 1)`, extracting the features gives coverage 0 and complexity
0; classifying them gives, when the override (decided by the third draw) does
not fire, the needs-more-detail label and a score `s` with `20 <= s <= 50`, and
when it fires, a special-species label and a score `s` with `30 <= s <= 60`. -/
theorem c17_blank_raster (img : ImageData) (rnd : ℕ → ℕ) (hw : WellFormed img)
    (hz : ∀ x y, x < img.width → y < img.height → alphaAt img x y = 0)
    (hr : ValidDraws rnd) :
    ∃ fs : FeatureSet, extractBasicFeatures img = some fs ∧
      fs.coverage = 0 ∧ fs.complexity = 0 ∧
      (¬ lit 8 10 < rnd 2 →
        (simulateRecognition fs rnd).type = some "需要更多细节" ∧
          20 ≤ (simulateRecognition fs rnd).score ∧
          (simulateRecognition fs rnd).score ≤ 50) ∧
      (lit 8 10 < rnd 2 →
        (simulateRecognition fs rnd).type ∈
            [some "鲨鱼", some "小丑鱼", some "蝴蝶鱼", some "斗鱼"] ∧
          30 ≤ (simulateRecognition fs rnd).score ∧
          (simulateRecognition fs rnd).score ≤ 60) := by
  obtain ⟨fs, hfs, hcx, _, hcov⟩ := blank_raster_features img hw hz
  have hcov0 : fs.coverage = 0 := hcov
  have hb : classifyBranch fs rnd =
      (some "需要更多细节",
        fadd (lit 2 10) (fmul (rnd 0) (lit 3 10)),
        fadd (ofNat 20) (fmul (rnd 1) (ofNat 30)), 2) := by
    rcases classifyBranch_cases fs rnd with ⟨hc, _⟩ | ⟨hc, _⟩ | ⟨hc, _⟩ | ⟨_, hb⟩
    · omega
    · omega
    · omega
    · exact hb
  have hu1 : rnd 1 ≤ one := le_of_lt (hr 1).1
  obtain ⟨_, _, _, e4⟩ := branch_endpoints
  obtain ⟨o1, o2⟩ := override_endpoints
  refine ⟨fs, hfs, hcov0, hcx, ?_, ?_⟩
  · intro hno
    have hno' : ¬ lit 8 10 < rnd (classifyBranch fs rnd).2.2.2 := by rw [hb]; exact hno
    rw [simulateRecognition_of_not_override hno', hb]
    dsimp only
    obtain ⟨s1, s2⟩ := @score_between (ofNat 20) (ofNat 30) (rnd 1) 20 50 hu1 e4.2.2.1 e4.2.2.2
    exact ⟨rfl, by exact_mod_cast s1, by exact_mod_cast s2⟩
  · intro hov
    have hov' : lit 8 10 < rnd (classifyBranch fs rnd).2.2.2 := by rw [hb]; exact hov
    rw [simulateRecognition_of_override hov', hb]
    dsimp only
    refine ⟨pick_four _ _ _ _ (hr _).2 (hr _).1, ?_, ?_⟩
    · have h := mathRound_mono (min_le_min (le_refl (ofNat 95))
        (fadd_mono (fadd_mono (le_refl (ofNat 20))
          (fmul_mono (Nat.zero_le (rnd 1)) (le_refl (ofNat 30)))) (le_refl (ofNat 10))))
      rw [o1] at h
      exact_mod_cast h
    · have h := mathRound_mono (min_le_min (le_refl (ofNat 95))
        (fadd_mono (fadd_mono (le_refl (ofNat 20))
          (fmul_mono hu1 (le_refl (ofNat 30)))) (le_refl (ofNat 10))))
      rw [o2] at h
      exact_mod_cast h

theorem blankImage_blank :
    ∀ x y, x < blankImage.width → y < blankImage.height → alphaAt blankImage x y = 0 := by
  intro x y hx hy
  have hx' : x < 2 := hx
  have hy' : y < 2 := hy
  interval_cases x <;> interval_cases y <;> rfl

theorem c17_blank_raster_witness :
    WellFormed blankImage ∧
      (∀ x y, x < blankImage.width → y < blankImage.height → alphaAt blankImage x y = 0) ∧
      ValidDraws highDrawsThird ∧
      ∃ fs : FeatureSet, extractBasicFeatures blankImage = some fs ∧
        fs.coverage = 0 ∧ fs.complexity = 0 ∧
        (¬ lit 8 10 < highDrawsThird 2 →
          (simulateRecognition fs highDrawsThird).type = some "需要更多细节" ∧
            20 ≤ (simulateRecognition fs highDrawsThird).score ∧
            (simulateRecognition fs highDrawsThird).score ≤ 50) ∧
        (lit 8 10 < highDrawsThird 2 →
          (simulateRecognition fs highDrawsThird).type ∈
              [some "鲨鱼", some "小丑鱼", some "蝴蝶鱼", some "斗鱼"] ∧
            30 ≤ (simulateRecognition fs highDrawsThird).score ∧
            (simulateRecognition fs highDrawsThird).score ≤ 60) :=
  ⟨by decide, blankImage_blank, validDraws_highDrawsThird,
    c17_blank_raster blankImage highDrawsThird (by decide) blankImage_blank
      validDraws_highDrawsThird⟩

/-! ### `FishDatabase` -/

/-- C18 (evaluation at the failing input): the label `toString` is not one of
the registered labels, yet `getFishInfo` does not return the default object
for it: the property read finds the member that the table object inherits from
`Object.prototype`. -/
theorem c18_getFishInfo_inherited_label :
    getAllFishTypes = ["金鱼", "鲤鱼", "鲨鱼", "小丑鱼"] ∧
      "toString" ∉ getAllFishTypes ∧
      getFishInfo "toString" = FishLookup.inherited "toString" ∧
      getFishInfo "toString" ≠ FishLookup.info defaultFishInfo := by
  decide

/-- For a registered label `getFishInfo` returns the stored entry, and for a
label that is neither registered nor a member of `Object.prototype` it returns
the default object. -/
theorem getFishInfo_spec (label : String) :
    (∀ e ∈ fishData, e.1 = label → getFishInfo label = FishLookup.info e.2) ∧
      (label ∉ getAllFishTypes → label ∉ objectPrototypeKeys →
        getFishInfo label = FishLookup.info defaultFishInfo) := by
  constructor
  · intro e he hl
    subst hl
    simp only [fishData, List.mem_cons, List.mem_singleton, List.not_mem_nil, or_false] at he
    rcases he with rfl | rfl | rfl | rfl <;> decide
  · intro h1 h2
    have hl : fishData.lookup label = none := by
      simp only [getAllFishTypes, fishData, List.map_cons, List.map_nil, List.mem_cons,
        List.mem_singleton, List.not_mem_nil, or_false, not_or] at h1
      obtain ⟨a, b, c, d⟩ := h1
      have ea : (label == "金鱼") = false := by simpa using a
      have eb : (label == "鲤鱼") = false := by simpa using b
      have ec : (label == "鲨鱼") = false := by simpa using c
      have ed : (label == "小丑鱼") = false := by simpa using d
      simp only [fishData, List.lookup, ea, eb, ec, ed]
    simp [getFishInfo, fishDataGet, hl, h2]

end DrawAFish
